import Mathlib

/-!
A shallow embedding of the core of `synctui-resolver` (files `src/model.rs`,
`src/scan.rs`, `src/ops.rs`, `src/tui.rs`) together with theorems checking the
natural-language specification against the code.

Modelling conventions:
* `PathBuf` is modelled as the list of path components (`Path := List String`),
  ordered with the component-wise lexicographic order, matching `Path::cmp`.
* `SystemTime` is modelled as a `Nat` (an absolute timestamp).
* The filesystem is a list of `(path, metadata)` pairs (the directory walk
  enumerates this list in order) plus the set of directories that exist.
* Fallible Rust functions (`anyhow::Result`) return `Option`/`Except` values,
  and stateful code is explicit state passing.
-/

namespace STR

/-- A filesystem path, as its list of components (Rust `PathBuf`). -/
abbrev Path := List String

/-- Metadata of an on-disk file, as obtained by a successful `fs::metadata`
call: the length, and the modification time when it is available
(`m.modified().ok()`). -/
structure Meta where
  size : Nat
  modified : Option Nat
deriving DecidableEq

/-- `src/model.rs`: `Candidate` — one file on disk that is a variant of a
logical file. -/
structure Candidate where
  path : Path
  «exists» : Bool
  is_original : Bool
  size : Option Nat
  modified : Option Nat
  label : String
deriving DecidableEq

/-- `src/model.rs`: `ConflictGroup` — one logical file and its variants. -/
structure ConflictGroup where
  base_path : Path
  candidates : List Candidate
  chosen : Option Nat
deriving DecidableEq

/-- One step of Rust `Iterator::max_by_key` (via `cmp::max_by`): the incoming
element replaces the accumulator unless its key is strictly smaller, so on
equal keys the later element wins. -/
def maxStep (acc : Option (Nat × Nat)) (p : Nat × Nat) : Option (Nat × Nat) :=
  match acc with
  | none => some p
  | some q => if p.2 < q.2 then some q else some p

/-- One step of Rust `Iterator::min_by_key` (via `cmp::min_by`): the incoming
element replaces the accumulator only if its key is strictly smaller, so on
equal keys the earlier element wins. -/
def minStep (acc : Option (Nat × Nat)) (p : Nat × Nat) : Option (Nat × Nat) :=
  match acc with
  | none => some p
  | some q => if p.2 < q.2 then some p else some q

/-- Rust `Iterator::max_by_key` on a list of `(index, key)` pairs. -/
def maxByKeyLast (l : List (Nat × Nat)) : Option (Nat × Nat) :=
  l.foldl maxStep none

/-- Rust `Iterator::min_by_key` on a list of `(index, key)` pairs. -/
def minByKeyFirst (l : List (Nat × Nat)) : Option (Nat × Nat) :=
  l.foldl minStep none

/-- The `(index, modification time)` pairs of the candidates that have a
modification time: `candidates.iter().enumerate().filter_map(|(i, c)|
c.modified.map(|m| (i, m)))` in both `newest_idx` and `oldest_idx`. -/
def mtimePairs (g : ConflictGroup) : List (Nat × Nat) :=
  g.candidates.enum.filterMap (fun ic => ic.2.modified.map (fun m => (ic.1, m)))

/-- `src/model.rs` lines 22–29: `ConflictGroup::newest_idx`. -/
def ConflictGroup.newest_idx (g : ConflictGroup) : Option Nat :=
  (maxByKeyLast (mtimePairs g)).map (fun im => im.1)

/-- `src/model.rs` lines 31–38: `ConflictGroup::oldest_idx`. -/
def ConflictGroup.oldest_idx (g : ConflictGroup) : Option Nat :=
  (minByKeyFirst (mtimePairs g)).map (fun im => im.1)

/-- The group used to exhibit the tie-breaking behaviour: two candidates with
the same modification time. -/
def c5tie : ConflictGroup :=
  { base_path := ["g"]
    candidates :=
      [ { path := ["a"], «exists» := true, is_original := true,
          size := none, modified := some 5, label := "Original" }
      , { path := ["b"], «exists» := true, is_original := false,
          size := none, modified := some 5, label := "Conflict 1" } ]
    chosen := none }

/-- Witness for `newest_oldest_idx_spec` at the concrete timestamps
`{10, 5, 99}` from the specification's example. -/
def c5ex : ConflictGroup :=
  { base_path := ["g"]
    candidates :=
      [ { path := ["a"], «exists» := true, is_original := true,
          size := none, modified := some 10, label := "Original" }
      , { path := ["b"], «exists» := true, is_original := false,
          size := none, modified := some 5, label := "Conflict 1" }
      , { path := ["c"], «exists» := true, is_original := false,
          size := none, modified := some 99, label := "Conflict 2" } ]
    chosen := none }

/-! ### Scanner definitions (`src/scan.rs`) -/

/-- The filesystem model: the regular files with their metadata, in the order
in which the directory walk (`WalkDir`, `follow_links(false)`) enumerates
them, plus the directories that exist. -/
structure FileSys where
  files : List (Path × Meta)
  dirs : List Path
deriving DecidableEq

/-- The Syncthing conflict marker `".sync-conflict-"`, as a character list. -/
def conflictMarker : List Char := ".sync-conflict-".data

/-- Index of the first occurrence of `pat` in `hay` (Rust `str::find` with a
string pattern). -/
def findSubIdx : List Char → List Char → Option Nat
  | [], pat => if pat = [] then some 0 else none
  | c :: rest, pat =>
    if pat.isPrefixOf (c :: rest) then some 0
    else (findSubIdx rest pat).map (fun i => i + 1)

/-- `scan.rs` lines 8–15: `is_conflict_name` — the part of the file name
before the first occurrence of the marker, when the marker occurs. -/
def is_conflict_name (fileName : String) : Option String :=
  (findSubIdx fileName.data conflictMarker).map
    (fun idx => String.mk (fileName.data.take idx))

/-- Rust `name.starts_with('.')`. -/
def startsWithDot (s : String) : Bool :=
  match s.data with
  | [] => false
  | c :: _ => c == '.'

/-- Boolean strict lexicographic comparison on lists, with component
comparator `f`; used to keep path comparisons kernel-computable.  Its
agreement with the lexicographic order is proved in `lexLtB_iff`. -/
def lexLtB {α : Type} (f : α → α → Bool) : List α → List α → Bool
  | _, [] => false
  | [], _ :: _ => true
  | a :: as, b :: bs => if f a b then true else if f b a then false else lexLtB f as bs

/-- Computable strict comparison of strings (byte/char lexicographic, as in
Rust `str` ordering). -/
def strLtB (a b : String) : Bool :=
  lexLtB (fun a b : Char => decide (a < b)) a.data b.data

/-- Computable strict comparison of paths: component-wise lexicographic,
matching Rust `Path::cmp`. -/
def pathLtB (a b : Path) : Bool := lexLtB strLtB a b

/-- Computable `≤` on paths. -/
def pathLeB (a b : Path) : Bool := !pathLtB b a

theorem lexLtB_iff {α : Type} [LinearOrder α] (f : α → α → Bool)
    (hf : ∀ a b, f a b = true ↔ a < b) :
    ∀ x y, lexLtB f x y = true ↔ List.Lex (· < ·) x y := by
  intro x
  induction x with
  | nil =>
    intro y
    cases y with
    | nil =>
      constructor
      · intro h
        exact absurd h (by simp [lexLtB])
      · intro h
        exact absurd h (List.Lex.not_nil_right _ _)
    | cons b bs =>
      constructor
      · intro _
        exact List.Lex.nil
      · intro _
        rfl
  | cons a as ihx =>
    intro y
    cases y with
    | nil =>
      constructor
      · intro h
        exact absurd h (by simp [lexLtB])
      · intro h
        exact absurd h (List.Lex.not_nil_right _ _)
    | cons b bs =>
      rcases lt_trichotomy a b with h | h | h
      · have hab : f a b = true := (hf a b).mpr h
        simp only [lexLtB, hab, if_true]
        exact ⟨fun _ => List.Lex.rel h, fun _ => trivial⟩
      · subst h
        have hff : f a a = false := by
          by_contra hx
          rw [Bool.not_eq_false] at hx
          exact absurd ((hf a a).mp hx) (lt_irrefl a)
        have e1 : lexLtB f (a :: as) (a :: bs) = lexLtB f as bs := by
          simp [lexLtB, hff]
        rw [e1, ihx bs]
        exact (List.Lex.cons_iff).symm
      · have hab : f a b = false := by
          by_contra hx
          rw [Bool.not_eq_false] at hx
          exact absurd ((hf a b).mp hx) (lt_asymm h)
        have hba : f b a = true := (hf b a).mpr h
        have e1 : lexLtB f (a :: as) (b :: bs) = false := by
          simp [lexLtB, hab, hba]
        rw [e1]
        constructor
        · intro hx
          exact absurd hx (by simp)
        · intro hx
          cases hx with
          | rel hr => exact absurd hr (lt_asymm h)
          | cons ht => exact absurd h (lt_irrefl _)

theorem strLtB_iff (a b : String) : strLtB a b = true ↔ a < b := by
  have h := lexLtB_iff (fun a b : Char => decide (a < b))
    (fun a b => by simp) a.data b.data
  rw [strLtB, h]
  exact (String.lt_iff_toList_lt).symm

theorem pathLtB_iff (a b : Path) : pathLtB a b = true ↔ a < b := by
  have h := lexLtB_iff strLtB strLtB_iff a b
  rw [pathLtB, h]
  exact Iff.rfl

theorem pathLeB_iff (a b : Path) : pathLeB a b = true ↔ a ≤ b := by
  constructor
  · intro h
    by_contra hnle
    have h2 := (pathLtB_iff b a).mpr (not_le.mp hnle)
    rw [pathLeB, h2] at h
    exact absurd h (by simp)
  · intro hle
    rw [pathLeB]
    cases hx : pathLtB b a with
    | false => rfl
    | true => exact absurd ((pathLtB_iff b a).mp hx) (not_lt.mpr hle)

/-- Look up a path among the filesystem contents: `fs::metadata(&path).ok()`
returns the metadata when the file exists. -/
def findMeta (files : List (Path × Meta)) (p : Path) : Option Meta :=
  (files.find? (fun e => e.1 = p)).map (fun e => e.2)

/-- `scan.rs` lines 17–27: `stat_candidate`. -/
def stat_candidate (fs : FileSys) (path : Path) (is_original : Bool)
    (label : String) : Candidate :=
  let meta := findMeta fs.files path
  { path := path
    «exists» := meta.isSome
    size := meta.map (fun m => m.size)
    modified := meta.bind (fun m => m.modified)
    is_original := is_original
    label := label }

/-- One iteration of the walk loop of `scan_conflicts` (`scan.rs` lines
32–62): skip hidden entries unless `include_hidden` is set (a file whose name
starts with a dot, or any of whose path components starts with a dot — lines
39–51), classify the file name (line 53), and compute the `(base_path,
conflict_path)` pair (line 57). -/
def classifyEntry (include_hidden : Bool) (p : Path) : Option (Path × Path) :=
  match p.getLast? with
  | none => none
  | some fileName =>
    if !include_hidden && (startsWithDot fileName || p.any startsWithDot) then
      none
    else
      match is_conflict_name fileName with
      | none => none
      | some baseName => some (p.dropLast ++ [baseName], p)

/-- The `(base_path, conflict_path)` pairs produced by the directory walk, in
enumeration order. -/
def scanEntries (files : List (Path × Meta)) (include_hidden : Bool) :
    List (Path × Path) :=
  files.filterMap (fun e => classifyEntry include_hidden e.1)

/-- One `by_base.entry(base_path).or_default().push(path)` on the
`BTreeMap<PathBuf, Vec<PathBuf>>`, modelled as an association list strictly
sorted by key. -/
def insertEntry : List (Path × List Path) → Path → Path → List (Path × List Path)
  | [], k, v => [(k, [v])]
  | e :: rest, k, v =>
    if k = e.1 then (e.1, e.2 ++ [v]) :: rest
    else if pathLtB k e.1 then (k, [v]) :: e :: rest
    else e :: insertEntry rest k v

/-- The grouping loop of `scan_conflicts` (`scan.rs` lines 30–62). -/
def groupByBase (entries : List (Path × Path)) : List (Path × List Path) :=
  entries.foldl (fun m e => insertEntry m e.1 e.2) []

/-- The comparator of `scan.rs` line 81: `a.path.cmp(&b.path)`. -/
def candLe (a b : Candidate) : Prop := a.path ≤ b.path

instance : DecidableRel candLe :=
  fun a b => decidable_of_iff (pathLeB a.path b.path = true) (pathLeB_iff a.path b.path)

instance : IsTotal Candidate candLe := ⟨fun a b => le_total a.path b.path⟩

instance : IsTrans Candidate candLe := ⟨fun _ _ _ h₁ h₂ => le_trans h₁ h₂⟩

/-- `scan.rs` lines 66–83: build the candidate vector of one group — the
original candidate first (line 67), then the conflict files labelled
`"Conflict N"` in walk-enumeration order (lines 73–76), then partitioned so
the original comes first with the conflict part sorted by path (lines 78–83;
Rust `sort_by` is a stable sort, modelled by `insertionSort`). -/
def buildCandidates (fs : FileSys) (base_path : Path)
    (conflict_paths : List Path) : List Candidate :=
  let cands := stat_candidate fs base_path true "Original" ::
    conflict_paths.enum.map
      (fun ip => stat_candidate fs ip.2 false ("Conflict " ++ toString (ip.1 + 1)))
  let parts := cands.partition (fun c => c.is_original)
  parts.1 ++ List.insertionSort candLe parts.2

/-- `scan.rs` lines 29–93: `scan_conflicts`.  In this model the directory
walk cannot fail, so the `Result` wrapper of the source is dropped. -/
def scan_conflicts (fs : FileSys) (include_hidden : Bool) : List ConflictGroup :=
  (groupByBase (scanEntries fs.files include_hidden)).map
    (fun kv =>
      { base_path := kv.1
        candidates := buildCandidates fs kv.1 kv.2
        chosen := none })

/-- Forget a candidate's (enumeration-order dependent) label. -/
def eraseLabel (c : Candidate) : Candidate := { c with label := "" }

/-- Forget all labels in a group. -/
def eraseLabels (g : ConflictGroup) : ConflictGroup :=
  { g with candidates := g.candidates.map eraseLabel }

/-- The keys of the modelled `BTreeMap`. -/
def keys (m : List (Path × List Path)) : List Path := m.map Prod.fst

/-- The value stored at key `k` (empty list when absent). -/
def valueOf : List (Path × List Path) → Path → List Path
  | [], _ => []
  | e :: rest, k => if k = e.1 then e.2 else valueOf rest k

/-- A fixed metadata value for concrete scan examples. -/
def exMeta : Meta := { size := 1, modified := some 1 }

/-- Two conflict files of one group, enumerated by the directory walk in
reverse path order. -/
def c4fs : FileSys :=
  { files :=
      [ (["n.sync-conflict-B"], exMeta)
      , (["n.sync-conflict-A"], exMeta) ]
    dirs := [] }

/-- The same two conflict files, enumerated in path order. -/
def c3fsSorted : FileSys :=
  { files :=
      [ (["n.sync-conflict-A"], exMeta)
      , (["n.sync-conflict-B"], exMeta) ]
    dirs := [] }


/-! ### Move/archive engine (`src/ops.rs`) and per-group apply (`src/tui.rs`) -/

/-- A performed filesystem mutation: the engine invocations made by
`apply_group` (`ensure_dir` at tui.rs line 494 and `move_file` at lines 507
and 512).  Only mutations that actually happen are logged; a failing
`move_file` changes nothing (the rename fails and the fallback copy fails
before the delete) and so logs nothing. -/
inductive FsOp where
  | ensureDir (p : Path)
  | move (src dst : Path)
deriving DecidableEq

/-- Rust `Path::parent` in the component model: the empty path has no parent,
any other path drops its last component. -/
def parentOf (p : Path) : Option Path :=
  match p with
  | [] => none
  | _ :: _ => some p.dropLast

/-- Rust `Path::file_name`. -/
def fileNameOf (p : Path) : Option String := p.getLast?

/-- Path rendering for error messages. -/
def pathStr (p : Path) : String := String.intercalate "/" p

/-- `ops.rs` lines 6–8: `ensure_dir` / `fs::create_dir_all` — create the
directory and all of its ancestors (never fails in this model). -/
def ensureDirFs (fs : FileSys) (p : Path) : FileSys :=
  let newDirs :=
    ((List.range p.length).map (fun n => p.take (n + 1))).filter
      (fun d => decide (d ∉ fs.dirs))
  { fs with dirs := fs.dirs ++ newDirs }

/-- `ops.rs` lines 10–22: `move_file` — create the destination's parent
directories, attempt a rename, and on failure fall back to copy then delete.
In this model a rename (and the fallback copy) fails exactly when the source
does not exist, and a failed move leaves the files untouched; a successful
move removes the source entry and (over)writes the destination entry. -/
def move_file (fs : FileSys) (src dst : Path) : Except String FileSys :=
  let fs1 := match parentOf dst with
    | some par => ensureDirFs fs par
    | none => fs
  match findMeta fs1.files src with
  | some m => Except.ok { fs1 with files :=
      (fs1.files.filter (fun e => decide (e.1 ≠ src) && decide (e.1 ≠ dst)))
        ++ [(dst, m)] }
  | none => Except.error ("copy " ++ pathStr src ++ " -> " ++ pathStr dst)

/-- `ops.rs` lines 31–33: `unique_name` — the millisecond clock value read by
`unique_suffix_millis` is passed in as an explicit parameter. -/
def unique_name (base : String) (millis : Nat) : String :=
  base ++ "." ++ toString millis

/-- `ops.rs` lines 35–38: `archive_dir_for`. -/
def archive_dir_for (base_path : Path) : Except String Path :=
  match parentOf base_path with
  | none => Except.error "no parent"
  | some par => Except.ok (par ++ [".stconflict-archive"])

/-- The default `Candidate` standing in for Rust's out-of-bounds indexing
panic; theorems about `apply_group` assume the chosen index is in bounds. -/
def defaultCand : Candidate :=
  { path := [], «exists» := false, is_original := false,
    size := none, modified := none, label := "" }

/-- The archive loop of `apply_group` (`tui.rs` lines 497–508): move every
candidate whose path is not the keeper's and whose recorded `exists` flag is
set into the archive directory, stopping at the first failure.  Returns the
filesystem after the moves that happened, the log of those moves, and the
first error if any. -/
def archiveCands (adir cp : Path) (millis : Nat) :
    FileSys → List Candidate → FileSys × List FsOp × Option String
  | fs, [] => (fs, [], none)
  | fs, c :: rest =>
    if c.path = cp then archiveCands adir cp millis fs rest
    else if c.«exists» = false then archiveCands adir cp millis fs rest
    else
      match fileNameOf c.path with
      | none => (fs, [], some "bad name")
      | some name =>
        match move_file fs c.path (adir ++ [unique_name name millis]) with
        | Except.ok fs2 =>
          let r := archiveCands adir cp millis fs2 rest
          (r.1, FsOp.move c.path (adir ++ [unique_name name millis]) :: r.2.1, r.2.2)
        | Except.error e =>
          (fs, [], some ("archive " ++ pathStr c.path ++ ": " ++ e))

/-- `tui.rs` lines 475–516: `apply_group`, as a function of the apply flag,
the filesystem, the group, the chosen index and the clock.  Returns the new
filesystem, the log of performed mutations, and the error, if any. -/
def apply_group (apply : Bool) (fs : FileSys) (g : ConflictGroup)
    (chosen_idx millis : Nat) : FileSys × List FsOp × Option String :=
  let base := g.base_path
  match archive_dir_for base with
  | Except.error e => (fs, [], some e)
  | Except.ok archive_dir =>
    let chosen_path := (g.candidates.getD chosen_idx defaultCand).path
    let make_base_from : Option Path :=
      if chosen_path = base then none else some chosen_path
    if !apply then
      (fs, [], none)
    else
      let fs1 := ensureDirFs fs archive_dir
      let r := archiveCands archive_dir chosen_path millis fs1 g.candidates
      match r.2.2 with
      | some e => (r.1, FsOp.ensureDir archive_dir :: r.2.1, some e)
      | none =>
        match make_base_from with
        | none => (r.1, FsOp.ensureDir archive_dir :: r.2.1, none)
        | some src =>
          match move_file r.1 src base with
          | Except.ok fs2 =>
            (fs2, FsOp.ensureDir archive_dir :: r.2.1 ++ [FsOp.move src base],
              none)
          | Except.error e =>
            (r.1, FsOp.ensureDir archive_dir :: r.2.1,
              some ("set base " ++ pathStr base ++ ": " ++ e))

/-- The predicate of the archive loop: candidates that get archived (path is
not the keeper's, and the scan-time `exists` flag is set). -/
def archTarget (chosen_path : Path) (c : Candidate) : Bool :=
  decide (c.path ≠ chosen_path) && c.«exists»

/-- The archive move of one candidate. -/
def archMove (archive_dir : Path) (millis : Nat) (c : Candidate) : FsOp :=
  FsOp.move c.path (archive_dir ++ [unique_name (c.path.getLastD "") millis])

/-- A group whose second candidate is recorded as missing (`exists = false`)
although its path is present on disk at apply time; the keeper is the
original. -/
def c6g : ConflictGroup :=
  { base_path := ["d", "f"]
    candidates :=
      [ { path := ["d", "f"], «exists» := true, is_original := true,
          size := some 1, modified := some 1, label := "Original" }
      , { path := ["d", "x"], «exists» := false, is_original := false,
          size := none, modified := none, label := "Conflict 1" } ]
    chosen := some 0 }

/-- The filesystem at apply time for `c6g`: both paths exist on disk. -/
def c6fs : FileSys :=
  { files := [ (["d", "f"], exMeta), (["d", "x"], exMeta) ], dirs := [["d"]] }

/-- A group with an absent original and two live conflicts, the first
conflict chosen as keeper. -/
def c1g : ConflictGroup :=
  { base_path := ["d", "n"]
    candidates :=
      [ { path := ["d", "n"], «exists» := false, is_original := true,
          size := none, modified := none, label := "Original" }
      , { path := ["d", "n1"], «exists» := true, is_original := false,
          size := some 1, modified := some 5, label := "Conflict 1" }
      , { path := ["d", "n2"], «exists» := true, is_original := false,
          size := some 2, modified := some 7, label := "Conflict 2" } ]
    chosen := some 1 }

/-- The filesystem at apply time for `c1g`. -/
def c1fs : FileSys :=
  { files := [ (["d", "n1"], exMeta), (["d", "n2"], exMeta) ], dirs := [["d"]] }

/-! ### Interaction controller definitions (`src/tui.rs`) -/

/-- `tui.rs` lines 43–49: the state machine's modes. -/
inductive Mode where
  | list
  | pick
  | confirm
  | done
deriving DecidableEq

/-- `tui.rs` lines 51–63: the mutable session state.  `ratatui`'s
`ListState` is modelled by its selected index; the `BTreeSet<usize>` of
selected groups by a sorted duplicate-free list. -/
structure App where
  root : Path
  apply : Bool
  include_hidden : Bool
  mode : Mode
  groups : List ConflictGroup
  list_state : Option Nat
  pick_state : Option Nat
  selected_groups : List Nat
  message : String
  planned_ops : List String
  planned_targets : List Nat
deriving DecidableEq

/-- The default group standing in for Rust's out-of-bounds indexing panic;
theorems assume indices are in bounds. -/
def defaultGroup : ConflictGroup :=
  { base_path := [], candidates := [], chosen := none }

/-- `app.groups[gi]` (by-value). -/
def getGroup (groups : List ConflictGroup) (gi : Nat) : ConflictGroup :=
  groups.getD gi defaultGroup

/-- `BTreeSet::insert` on the sorted-list model. -/
def btsInsert : List Nat → Nat → List Nat
  | [], i => [i]
  | x :: rest, i =>
    if i = x then x :: rest
    else if i < x then i :: x :: rest
    else x :: btsInsert rest i

/-- In-place update of one group. -/
def modifyGroup : List ConflictGroup → Nat → (ConflictGroup → ConflictGroup) →
    List ConflictGroup
  | [], _, _ => []
  | g :: rest, 0, f => f g :: rest
  | g :: rest, n + 1, f => g :: modifyGroup rest n f

/-- `tui.rs` lines 257–267: `list_down` on a `ListState` of length `len`. -/
def list_down (state : Option Nat) (len : Nat) : Option Nat :=
  if len = 0 then none
  else match state with
    | none => some 0
    | some i => some (min (i + 1) (len - 1))

/-- `tui.rs` lines 269–279: `list_up`. -/
def list_up (state : Option Nat) (len : Nat) : Option Nat :=
  if len = 0 then none
  else match state with
    | none => some 0
    | some i => some (i - 1)

/-- `tui.rs` lines 518–523: `current_group_len`. -/
def current_group_len (app : App) : Nat :=
  match app.list_state with
  | none => 0
  | some i =>
    match app.groups[i]? with
    | some g => g.candidates.length
    | none => 0

/-- `tui.rs` lines 281–290: `toggle_selected`. -/
def toggle_selected (app : App) : App :=
  match app.list_state with
  | none => app
  | some i =>
    if i ∈ app.selected_groups then
      { app with selected_groups :=
          app.selected_groups.filter (fun x => decide (x ≠ i)) }
    else
      { app with selected_groups := btsInsert app.selected_groups i }

/-- `tui.rs` lines 292–304: `enter_pick` — the pick cursor defaults to the
newest candidate, falling back to index 0 (the original). -/
def enter_pick (app : App) : App × Option String :=
  match app.list_state with
  | none => (app, some "no selection")
  | some gi =>
    match app.groups[gi]? with
    | none => (app, some "bad index")
    | some g =>
      ({ app with mode := Mode.pick, pick_state := some (g.newest_idx.getD 0) },
        none)

/-- `tui.rs` lines 306–319: `pick_current`. -/
def pick_current (app : App) : App × Option String :=
  match app.list_state with
  | none => (app, some "no selection")
  | some gi =>
    match app.pick_state with
    | none => (app, some "no candidate")
    | some ci =>
      ({ app with
          groups := modifyGroup app.groups gi (fun g => { g with chosen := some ci })
          mode := Mode.list
          message := "Picked" }, none)

/-- `tui.rs` lines 321–331: `pick_original` — the original is always
`candidates[0]`. -/
def pick_original (app : App) : App × Option String :=
  match app.list_state with
  | none => (app, some "no selection")
  | some gi =>
    ({ app with
        groups := modifyGroup app.groups gi (fun g => { g with chosen := some 0 })
        mode := Mode.list
        message := "Picked original" }, none)

/-- `tui.rs` lines 333–345: `pick_newest` — errors with "no mtime" when the
group has no candidate with a modification time. -/
def pick_newest (app : App) : App × Option String :=
  match app.list_state with
  | none => (app, some "no selection")
  | some gi =>
    match (getGroup app.groups gi).newest_idx with
    | none => (app, some "no mtime")
    | some idx =>
      ({ app with
          groups := modifyGroup app.groups gi (fun g => { g with chosen := some idx })
          mode := Mode.list
          message := "Picked newest" }, none)

/-- `tui.rs` lines 347–359: `pick_oldest`. -/
def pick_oldest (app : App) : App × Option String :=
  match app.list_state with
  | none => (app, some "no selection")
  | some gi =>
    match (getGroup app.groups gi).oldest_idx with
    | none => (app, some "no mtime")
    | some idx =>
      ({ app with
          groups := modifyGroup app.groups gi (fun g => { g with chosen := some idx })
          mode := Mode.list
          message := "Picked oldest" }, none)

/-- `tui.rs` lines 214–219: the quick-pick kinds. -/
inductive PickKind where
  | current
  | newest
  | oldest
deriving DecidableEq

/-- `tui.rs` lines 246–253: the quick-pick status message. -/
def pickKindMessage (kind : PickKind) (selected_only : Bool) : String :=
  match kind, selected_only with
  | PickKind.current, false => "Picked current"
  | PickKind.newest, false => "Picked newest"
  | PickKind.oldest, false => "Picked oldest"
  | PickKind.current, true => "Picked current for selected"
  | PickKind.newest, true => "Picked newest for selected"
  | PickKind.oldest, true => "Picked oldest for selected"

/-- `tui.rs` lines 221–255: `pick_kind_for_targets` — quick-pick from the
list view; a group whose `newest_idx`/`oldest_idx` is `None` silently falls
back to `Some(0)` (`.or(Some(0))`), and every affected group is also added
to the multi-select set. -/
def pick_kind_for_targets (app : App) (kind : PickKind) (selected_only : Bool) :
    App :=
  let targets :=
    if selected_only then app.selected_groups else app.list_state.toList
  let targets := List.insertionSort (· ≤ ·) targets
  if targets = [] then { app with message := "No groups selected" }
  else
    let app2 := targets.foldl (fun a gi =>
      let idx := match kind with
        | PickKind.current => some 0
        | PickKind.newest => (getGroup a.groups gi).newest_idx.or (some 0)
        | PickKind.oldest => (getGroup a.groups gi).oldest_idx.or (some 0)
      { a with
          groups := modifyGroup a.groups gi (fun g => { g with chosen := idx })
          selected_groups := btsInsert a.selected_groups gi }) app
    { app2 with message := pickKindMessage kind selected_only }

/-- `scan.rs` lines 95–97: `rel_path` — strip the root prefix when present. -/
def rel_path (root p : Path) : Path :=
  if root.isPrefixOf p then p.drop root.length else p

/-- `tui.rs` lines 391–409: `plan_group_ops` — push the three human-readable
plan lines for one group. -/
def plan_group_ops (app : App) (gi ci : Nat) : App × Option String :=
  let g := getGroup app.groups gi
  match archive_dir_for g.base_path with
  | Except.error e => (app, some e)
  | Except.ok archive_dir =>
    ({ app with planned_ops := app.planned_ops ++
        [ "Group: " ++ pathStr (rel_path app.root g.base_path)
        , "  keep -> " ++
            pathStr (rel_path app.root (g.candidates.getD ci defaultCand).path)
        , "  archive -> " ++ pathStr (rel_path app.root archive_dir) ] }, none)

/-- The loop of `plan_and_confirm` (`tui.rs` lines 376–388): plan each target
in turn; a target without a chosen candidate aborts the whole plan, clearing
it and reporting the precondition. -/
def planLoop (targets : List Nat) : App → List Nat → App × Option String
  | app, [] => ({ app with planned_targets := targets, mode := Mode.confirm }, none)
  | app, gi :: rest =>
    match (getGroup app.groups gi).chosen with
    | none =>
      ({ app with
          message := "Pick a version first (Enter)"
          planned_ops := []
          planned_targets := [] }, none)
    | some ci =>
      match plan_group_ops app gi ci with
      | (app2, some e) => (app2, some e)
      | (app2, none) => planLoop targets app2 rest

/-- `tui.rs` lines 361–389: `plan_and_confirm`. -/
def plan_and_confirm (app : App) (all_selected : Bool) : App × Option String :=
  let targets :=
    if all_selected then app.selected_groups else app.list_state.toList
  let targets := List.insertionSort (· ≤ ·) targets
  if targets = [] then ({ app with message := "No groups selected" }, none)
  else
    planLoop targets { app with planned_ops := [], planned_targets := [] } targets

/-- The loop of `apply_plan` (`tui.rs` lines 420–432): apply each target
group, skipping those without a choice, collecting each failing group's
error message and continuing with the remaining groups. -/
def applyLoop (app : App) (millis : Nat) : FileSys → List Nat → FileSys × List String
  | fs, [] => (fs, [])
  | fs, gi :: rest =>
    match (getGroup app.groups gi).chosen with
    | none => applyLoop app millis fs rest
    | some ci =>
      let r := apply_group app.apply fs (getGroup app.groups gi) ci millis
      match r.2.2 with
      | none => applyLoop app millis r.1 rest
      | some e =>
        let tail := applyLoop app millis r.1 rest
        (tail.1,
          (pathStr (rel_path app.root (getGroup app.groups gi).base_path) ++
            ": " ++ e) :: tail.2)

/-- One iteration of the `apply_plan` loop, in isolation. -/
def applyOneGroup (app : App) (millis : Nat) (fs : FileSys) (gi : Nat) :
    FileSys × List String :=
  match (getGroup app.groups gi).chosen with
  | none => (fs, [])
  | some ci =>
    let r := apply_group app.apply fs (getGroup app.groups gi) ci millis
    match r.2.2 with
    | none => (r.1, [])
    | some e =>
      (r.1,
        [pathStr (rel_path app.root (getGroup app.groups gi).base_path) ++
          ": " ++ e])

/-- `tui.rs` lines 463–473: `rescan` — replace all groups by a fresh scan,
clear the selections and reset the cursors. -/
def rescan (app : App) (fs : FileSys) : App :=
  let groups := scan_conflicts fs app.include_hidden
  { app with
      groups := groups
      selected_groups := []
      pick_state := none
      list_state := if groups = [] then none else some 0 }

/-- `tui.rs` lines 411–461: `apply_plan` — apply all planned targets,
report the collected errors together, or on full success either rescan (in
apply mode) or keep the confirmation open (dry-run). -/
def apply_plan (app : App) (fs : FileSys) (millis : Nat) : App × FileSys :=
  let targets := app.planned_targets
  if targets = [] then
    ({ app with
        message := "Nothing planned"
        mode := Mode.list
        planned_ops := [] }, fs)
  else
    let r := applyLoop app millis fs targets
    if r.2 = [] then
      if app.apply then
        let app2 := rescan { app with planned_ops := [], planned_targets := [] } r.1
        ({ app2 with mode := Mode.list, message := "Applied" }, r.1)
      else
        ({ app with
            mode := Mode.confirm
            message :=
              "Dry-run complete. Toggle apply with 't', then press 'y' to apply." },
          r.1)
    else
      ({ app with
          planned_ops := r.2
          planned_targets := []
          message := "Some groups failed (" ++ toString r.2.length ++
            "). See details in the log panel."
          mode := Mode.confirm }, r.1)

/-- The key events the controller reacts to (`crossterm::KeyCode`,
restricted to the keys `handle_key` inspects). -/
inductive KeyCode where
  | char (c : Char)
  | enter
  | esc
  | up
  | down
deriving DecidableEq

/-- Key modifiers: only CONTROL is inspected by the source. -/
inductive KeyMods where
  | plain
  | ctrl
deriving DecidableEq

/-- The outcome of one `handle_key` call: the session state and filesystem
afterwards, whether a quit was requested (`Ok(true)`), and the error, if the
handler returned `Err` (in which case `?`-propagation ends the event loop).
For every handler of the source, no state mutation precedes a possible
error, so the returned state on error is the state at entry. -/
structure KeyOut where
  app : App
  fs : FileSys
  quit : Bool
  err : Option String
deriving DecidableEq

/-- `tui.rs` lines 137–212: `handle_key`. -/
def handle_key (app : App) (fs : FileSys) (code : KeyCode) (mods : KeyMods)
    (millis : Nat) : KeyOut :=
  match app.mode, code, mods with
  | _, KeyCode.char 'c', KeyMods.ctrl => ⟨app, fs, true, none⟩
  | Mode.list, KeyCode.char 't', _
  | Mode.pick, KeyCode.char 't', _
  | Mode.confirm, KeyCode.char 't', _ =>
    ⟨{ app with
        apply := !app.apply
        message := if !app.apply then "Mode: APPLY (will move files)"
          else "Mode: DRY-RUN (no filesystem changes)" }, fs, false, none⟩
  | Mode.list, KeyCode.char 'q', _ => ⟨app, fs, true, none⟩
  | Mode.pick, KeyCode.esc, _ =>
    ⟨{ app with mode := Mode.list, pick_state := none }, fs, false, none⟩
  | Mode.confirm, KeyCode.esc, _ =>
    ⟨{ app with
        mode := Mode.list
        planned_ops := []
        planned_targets := []
        message := "" }, fs, false, none⟩
  | Mode.list, KeyCode.down, _ =>
    ⟨{ app with list_state := list_down app.list_state app.groups.length },
      fs, false, none⟩
  | Mode.list, KeyCode.up, _ =>
    ⟨{ app with list_state := list_up app.list_state app.groups.length },
      fs, false, none⟩
  | Mode.pick, KeyCode.down, _ =>
    ⟨{ app with pick_state := list_down app.pick_state (current_group_len app) },
      fs, false, none⟩
  | Mode.pick, KeyCode.up, _ =>
    ⟨{ app with pick_state := list_up app.pick_state (current_group_len app) },
      fs, false, none⟩
  | Mode.list, KeyCode.char ' ', _ => ⟨toggle_selected app, fs, false, none⟩
  | Mode.list, KeyCode.char 'c', _
  | Mode.list, KeyCode.char 'o', _ =>
    ⟨pick_kind_for_targets app PickKind.current false, fs, false, none⟩
  | Mode.list, KeyCode.char 'n', _ =>
    ⟨pick_kind_for_targets app PickKind.newest false, fs, false, none⟩
  | Mode.list, KeyCode.char 'p', _ =>
    ⟨pick_kind_for_targets app PickKind.oldest false, fs, false, none⟩
  | Mode.list, KeyCode.char 'C', _
  | Mode.list, KeyCode.char 'O', _ =>
    ⟨pick_kind_for_targets app PickKind.current true, fs, false, none⟩
  | Mode.list, KeyCode.char 'N', _ =>
    ⟨pick_kind_for_targets app PickKind.newest true, fs, false, none⟩
  | Mode.list, KeyCode.char 'P', _ =>
    ⟨pick_kind_for_targets app PickKind.oldest true, fs, false, none⟩
  | Mode.list, KeyCode.enter, _ =>
    let r := enter_pick app
    ⟨r.1, fs, false, r.2⟩
  | Mode.pick, KeyCode.enter, _ =>
    let r := pick_current app
    ⟨r.1, fs, false, r.2⟩
  | Mode.pick, KeyCode.char 'o', _ =>
    let r := pick_original app
    ⟨r.1, fs, false, r.2⟩
  | Mode.pick, KeyCode.char 'n', _ =>
    let r := pick_newest app
    ⟨r.1, fs, false, r.2⟩
  | Mode.pick, KeyCode.char 'p', _ =>
    let r := pick_oldest app
    ⟨r.1, fs, false, r.2⟩
  | Mode.list, KeyCode.char 'A', _ =>
    let r := plan_and_confirm app true
    ⟨r.1, fs, false, r.2⟩
  | Mode.list, KeyCode.char 'a', _ =>
    let r := plan_and_confirm app false
    ⟨r.1, fs, false, r.2⟩
  | Mode.confirm, KeyCode.char 'y', _ =>
    let r := apply_plan app fs millis
    ⟨r.1, r.2, false, none⟩
  | Mode.confirm, KeyCode.char 'n', _ =>
    ⟨{ app with
        mode := Mode.list
        planned_ops := []
        planned_targets := []
        message := "Cancelled" }, fs, false, none⟩
  | _, _, _ => ⟨app, fs, false, none⟩

/-- The fate of one iteration of `run_loop` (`tui.rs` lines 116–135). -/
inductive StepResult where
  | cont (app : App) (fs : FileSys)
  | exitOk (app : App) (fs : FileSys)
  | exitErr (msg : String) (app : App) (fs : FileSys)
deriving DecidableEq

/-- One iteration of `run_loop`: in `Done` the loop returns; otherwise a key
press is dispatched, an `Err` from `handle_key` propagates out of the loop
(ending the session with that error), `Ok(true)` ends it normally, and
`Ok(false)` continues. -/
def run_loop_step (app : App) (fs : FileSys) (code : KeyCode) (mods : KeyMods)
    (millis : Nat) : StepResult :=
  if app.mode = Mode.done then StepResult.exitOk app fs
  else
    let r := handle_key app fs code mods millis
    match r.err with
    | some e => StepResult.exitErr e r.app r.fs
    | none =>
      if r.quit then StepResult.exitOk r.app r.fs
      else StepResult.cont r.app r.fs

/-! ### Concrete sessions used to instantiate the controller theorems -/

/-- A group in which no candidate has a modification time. -/
def c7g : ConflictGroup :=
  { base_path := ["d", "n"]
    candidates :=
      [ { path := ["d", "n"], «exists» := true, is_original := true,
          size := some 1, modified := none, label := "Original" }
      , { path := ["d", "n.sync-conflict-A"], «exists» := true,
          is_original := false, size := some 1, modified := none,
          label := "Conflict 1" } ]
    chosen := none }

/-- The disk behind `c7g`. -/
def c7fs : FileSys :=
  { files := [ (["d", "n"], { size := 1, modified := none })
             , (["d", "n.sync-conflict-A"], { size := 1, modified := none }) ]
    dirs := [["d"]] }

/-- A pick-mode session over `c7g` with the group under the cursor. -/
def c7app : App :=
  { root := ["d"]
    apply := false
    include_hidden := false
    mode := Mode.pick
    groups := [c7g]
    list_state := some 0
    pick_state := some 0
    selected_groups := []
    message := ""
    planned_ops := []
    planned_targets := [] }

/-- The same session in the list view. -/
def c10app : App := { c7app with mode := Mode.list }

/-- A dry-run confirmation session with group 0 planned and resolved. -/
def c2app : App :=
  { root := []
    apply := false
    include_hidden := false
    mode := Mode.confirm
    groups := [{ c7g with chosen := some 0 }]
    list_state := some 0
    pick_state := none
    selected_groups := [0]
    message := ""
    planned_ops := ["old plan line"]
    planned_targets := [0] }

/-- A group whose chosen conflict file will turn out to have vanished from
disk by apply time. -/
def c9gA : ConflictGroup :=
  { base_path := ["d", "a"]
    candidates :=
      [ { path := ["d", "a"], «exists» := true, is_original := true,
          size := some 1, modified := some 10, label := "Original" }
      , { path := ["d", "a.sync-conflict-X"], «exists» := true,
          is_original := false, size := some 1, modified := some 20,
          label := "Conflict 1" } ]
    chosen := some 1 }

/-- A healthy group whose chosen conflict file is still on disk. -/
def c9gB : ConflictGroup :=
  { base_path := ["d", "b"]
    candidates :=
      [ { path := ["d", "b"], «exists» := true, is_original := true,
          size := some 1, modified := some 11, label := "Original" }
      , { path := ["d", "b.sync-conflict-Y"], «exists» := true,
          is_original := false, size := some 2, modified := some 21,
          label := "Conflict 1" } ]
    chosen := some 1 }

/-- The disk at apply time: `c9gA`'s chosen file has vanished, everything of
`c9gB` is present. -/
def c9fs : FileSys :=
  { files := [ (["d", "a"], { size := 1, modified := some 10 })
             , (["d", "b"], { size := 1, modified := some 11 })
             , (["d", "b.sync-conflict-Y"], { size := 2, modified := some 21 }) ]
    dirs := [["d"]] }

/-- An apply-mode confirmation session over both groups. -/
def c9app : App :=
  { root := []
    apply := true
    include_hidden := false
    mode := Mode.confirm
    groups := [c9gA, c9gB]
    list_state := some 0
    pick_state := none
    selected_groups := [0, 1]
    message := ""
    planned_ops := ["plan line"]
    planned_targets := [0, 1] }

/-! ### Fold lemmas for the `max_by_key` / `min_by_key` semantics -/

theorem maxFold_spec (l : List (Nat × Nat)) (q : Nat × Nat) :
    ∃ r, l.foldl maxStep (some q) = some r ∧
      q.2 ≤ r.2 ∧ (∀ p ∈ l, p.2 ≤ r.2) ∧
      ((r = q ∧ ∀ p ∈ l, p.2 < q.2) ∨
        ∃ l₁ l₂, l = l₁ ++ r :: l₂ ∧ ∀ p ∈ l₂, p.2 < r.2) := by
  induction l generalizing q with
  | nil => exact ⟨q, rfl, le_refl _, by simp, Or.inl ⟨rfl, by simp⟩⟩
  | cons p t ih =>
    by_cases hpq : p.2 < q.2
    · obtain ⟨r, hfold, hqr, hbound, hsplit⟩ := ih q
      refine ⟨r, ?_, hqr, ?_, ?_⟩
      · simpa [maxStep, hpq] using hfold
      · intro x hx
        rcases List.mem_cons.mp hx with h | h
        · exact h ▸ le_trans (le_of_lt hpq) hqr
        · exact hbound x h
      · rcases hsplit with ⟨hrq, hall⟩ | ⟨l₁, l₂, heq, hlt⟩
        · exact Or.inl ⟨hrq, fun x hx => by
            rcases List.mem_cons.mp hx with h | h
            · exact h ▸ hpq
            · exact hall x h⟩
        · exact Or.inr ⟨p :: l₁, l₂, by rw [heq]; rfl, hlt⟩
    · obtain ⟨r, hfold, hpr, hbound, hsplit⟩ := ih p
      refine ⟨r, ?_, ?_, ?_, ?_⟩
      · simpa [maxStep, hpq] using hfold
      · exact le_trans (le_of_not_lt hpq) hpr
      · intro x hx
        rcases List.mem_cons.mp hx with h | h
        · exact h ▸ hpr
        · exact hbound x h
      · rcases hsplit with ⟨hrp, hall⟩ | ⟨l₁, l₂, heq, hlt⟩
        · exact Or.inr ⟨[], t, by rw [hrp]; rfl, fun x hx => hrp ▸ hall x hx⟩
        · exact Or.inr ⟨p :: l₁, l₂, by rw [heq]; rfl, hlt⟩

theorem minFold_spec (l : List (Nat × Nat)) (q : Nat × Nat) :
    ∃ r, l.foldl minStep (some q) = some r ∧
      r.2 ≤ q.2 ∧ (∀ p ∈ l, r.2 ≤ p.2) ∧
      (r = q ∨ ∃ l₁ l₂, l = l₁ ++ r :: l₂ ∧ r.2 < q.2 ∧ ∀ p ∈ l₁, r.2 < p.2) := by
  induction l generalizing q with
  | nil => exact ⟨q, rfl, le_refl _, by simp, Or.inl rfl⟩
  | cons p t ih =>
    by_cases hpq : p.2 < q.2
    · obtain ⟨r, hfold, hrp, hbound, hsplit⟩ := ih p
      refine ⟨r, ?_, le_trans hrp (le_of_lt hpq), ?_, ?_⟩
      · simpa [minStep, hpq] using hfold
      · intro x hx
        rcases List.mem_cons.mp hx with h | h
        · exact h ▸ hrp
        · exact hbound x h
      · rcases hsplit with hrq | ⟨l₁, l₂, heq, hlt, hall⟩
        · exact Or.inr ⟨[], t, by rw [hrq]; rfl, hrq ▸ hpq, by simp⟩
        · refine Or.inr ⟨p :: l₁, l₂, by rw [heq]; rfl, lt_trans hlt hpq, ?_⟩
          intro x hx
          rcases List.mem_cons.mp hx with h | h
          · exact h ▸ hlt
          · exact hall x h
    · obtain ⟨r, hfold, hrq, hbound, hsplit⟩ := ih q
      refine ⟨r, ?_, hrq, ?_, ?_⟩
      · simpa [minStep, hpq] using hfold
      · intro x hx
        rcases List.mem_cons.mp hx with h | h
        · exact h ▸ le_trans hrq (le_of_not_lt hpq)
        · exact hbound x h
      · rcases hsplit with hrq' | ⟨l₁, l₂, heq, hlt, hall⟩
        · exact Or.inl hrq'
        · refine Or.inr ⟨p :: l₁, l₂, by rw [heq]; rfl, hlt, ?_⟩
          intro x hx
          rcases List.mem_cons.mp hx with h | h
          · exact h ▸ lt_of_lt_of_le hlt (le_of_not_lt hpq)
          · exact hall x h

theorem maxByKeyLast_split {l : List (Nat × Nat)} {r : Nat × Nat}
    (h : maxByKeyLast l = some r) :
    (∀ p ∈ l, p.2 ≤ r.2) ∧ ∃ l₁ l₂, l = l₁ ++ r :: l₂ ∧ ∀ p ∈ l₂, p.2 < r.2 := by
  cases l with
  | nil => simp [maxByKeyLast] at h
  | cons p t =>
    obtain ⟨r', hfold, hpr, hbound, hsplit⟩ := maxFold_spec t p
    have hr : r' = r := by
      have : maxByKeyLast (p :: t) = some r' := by
        simpa [maxByKeyLast, List.foldl_cons, maxStep] using hfold
      exact Option.some.inj (this ▸ h)
    subst hr
    refine ⟨?_, ?_⟩
    · intro x hx
      rcases List.mem_cons.mp hx with hh | hh
      · exact hh ▸ hpr
      · exact hbound x hh
    · rcases hsplit with ⟨hrp, hall⟩ | ⟨l₁, l₂, heq, hlt⟩
      · exact ⟨[], t, by rw [hrp]; rfl, fun x hx => hrp ▸ hall x hx⟩
      · exact ⟨p :: l₁, l₂, by rw [heq]; rfl, hlt⟩

theorem minByKeyFirst_split {l : List (Nat × Nat)} {r : Nat × Nat}
    (h : minByKeyFirst l = some r) :
    (∀ p ∈ l, r.2 ≤ p.2) ∧ ∃ l₁ l₂, l = l₁ ++ r :: l₂ ∧ ∀ p ∈ l₁, r.2 < p.2 := by
  cases l with
  | nil => simp [minByKeyFirst] at h
  | cons p t =>
    obtain ⟨r', hfold, hrp, hbound, hsplit⟩ := minFold_spec t p
    have hr : r' = r := by
      have : minByKeyFirst (p :: t) = some r' := by
        simpa [minByKeyFirst, List.foldl_cons, minStep] using hfold
      exact Option.some.inj (this ▸ h)
    subst hr
    refine ⟨?_, ?_⟩
    · intro x hx
      rcases List.mem_cons.mp hx with hh | hh
      · exact hh ▸ hrp
      · exact hbound x hh
    · rcases hsplit with hrq | ⟨l₁, l₂, heq, hlt, hall⟩
      · exact ⟨[], t, by rw [hrq]; rfl, by simp⟩
      · refine ⟨p :: l₁, l₂, by rw [heq]; rfl, ?_⟩
        intro x hx
        rcases List.mem_cons.mp hx with hh | hh
        · exact hh ▸ hlt
        · exact hall x hh

theorem foldl_maxStep_some (l : List (Nat × Nat)) (q : Nat × Nat) :
    ∃ r, l.foldl maxStep (some q) = some r :=
  (maxFold_spec l q).imp (fun _ h => h.1)

theorem foldl_minStep_some (l : List (Nat × Nat)) (q : Nat × Nat) :
    ∃ r, l.foldl minStep (some q) = some r :=
  (minFold_spec l q).imp (fun _ h => h.1)

theorem maxByKeyLast_eq_none_iff (l : List (Nat × Nat)) :
    maxByKeyLast l = none ↔ l = [] := by
  cases l with
  | nil => simp [maxByKeyLast]
  | cons p t =>
    obtain ⟨r, hr⟩ := foldl_maxStep_some t p
    simp only [maxByKeyLast, List.foldl_cons]
    constructor
    · intro h
      rw [show maxStep none p = some p from rfl] at h
      rw [hr] at h
      exact absurd h (by simp)
    · intro h
      exact absurd h (by simp)

theorem minByKeyFirst_eq_none_iff (l : List (Nat × Nat)) :
    minByKeyFirst l = none ↔ l = [] := by
  cases l with
  | nil => simp [minByKeyFirst]
  | cons p t =>
    obtain ⟨r, hr⟩ := foldl_minStep_some t p
    simp only [minByKeyFirst, List.foldl_cons]
    constructor
    · intro h
      rw [show minStep none p = some p from rfl] at h
      rw [hr] at h
      exact absurd h (by simp)
    · intro h
      exact absurd h (by simp)

/-! ### Membership and monotonicity of `mtimePairs` -/

theorem mem_mtimePairs (g : ConflictGroup) (j t : Nat) :
    (j, t) ∈ mtimePairs g ↔ g.candidates[j]?.bind Candidate.modified = some t := by
  simp only [mtimePairs, List.mem_filterMap]
  constructor
  · rintro ⟨⟨i, c⟩, hmem, hf⟩
    rw [Option.map_eq_some'] at hf
    obtain ⟨m, hm, hmt⟩ := hf
    have hi : i = j := congrArg Prod.fst hmt
    have ht : m = t := congrArg Prod.snd hmt
    subst hi; subst ht
    rw [List.mem_enum_iff_getElem? (l := g.candidates) (x := (i, c))] at hmem
    rw [hmem]
    simpa using hm
  · intro h
    rcases hg : g.candidates[j]? with _ | c
    · rw [hg] at h; simp at h
    · rw [hg] at h
      simp only [Option.some_bind] at h
      refine ⟨(j, c), ?_, ?_⟩
      · rw [List.mem_enum_iff_getElem? (l := g.candidates) (x := (j, c))]
        exact hg
      · simp [h]

theorem mtimePairs_fst_mono (g : ConflictGroup) :
    (mtimePairs g).Pairwise (fun a b => a.1 < b.1) := by
  have henum : g.candidates.enum.Pairwise (fun a b => a.1 < b.1) := by
    have h : List.Pairwise (· < ·) (g.candidates.enum.map Prod.fst) := by
      rw [List.enum_map_fst]
      exact List.pairwise_lt_range _
    exact (List.pairwise_map.mp h)
  refine List.Pairwise.filterMap _ ?_ henum
  rintro ⟨i, c⟩ ⟨i', c'⟩ h p hp p' hp'
  simp only [Option.mem_def, Option.map_eq_some'] at hp hp'
  obtain ⟨m, hm, rfl⟩ := hp
  obtain ⟨m', hm', rfl⟩ := hp'
  exact h

theorem mtimePairs_eq_nil_iff (g : ConflictGroup) :
    mtimePairs g = [] ↔ ∀ c ∈ g.candidates, c.modified = none := by
  simp only [mtimePairs, List.filterMap_eq_nil_iff]
  constructor
  · intro h c hc
    obtain ⟨i, hlt, hi⟩ := List.mem_iff_getElem.mp hc
    have hmem : (i, c) ∈ g.candidates.enum := by
      rw [List.mem_enum_iff_getElem? (l := g.candidates) (x := (i, c))]
      exact (List.getElem?_eq_some.mpr ⟨hlt, hi⟩)
    have hnone := h _ hmem
    simpa [Option.map_eq_none'] using hnone
  · rintro h ⟨i, c⟩ hmem
    have hc : c ∈ g.candidates := by
      rw [List.mem_enum_iff_getElem? (l := g.candidates) (x := (i, c))] at hmem
      exact List.getElem?_mem hmem
    rw [h c hc]
    rfl

/-! ### Lemmas about the grouping map -/

theorem keys_cons (e : Path × List Path) (m : List (Path × List Path)) :
    keys (e :: m) = e.1 :: keys m := rfl

theorem valueOf_eq_nil_of_not_mem_keys {m : List (Path × List Path)} {k : Path}
    (h : k ∉ keys m) : valueOf m k = [] := by
  induction m with
  | nil => rfl
  | cons e rest ih =>
    rw [keys_cons, List.mem_cons] at h
    push_neg at h
    rw [valueOf, if_neg h.1]
    exact ih h.2

theorem mem_keys_insertEntry (m : List (Path × List Path)) (k v x : Path) :
    x ∈ keys (insertEntry m k v) ↔ x = k ∨ x ∈ keys m := by
  induction m with
  | nil => simp [insertEntry, keys]
  | cons e rest ih =>
    by_cases h1 : k = e.1
    · simp only [insertEntry, if_pos h1, keys_cons, List.mem_cons]
      rw [h1]
      tauto
    · by_cases h2 : k < e.1
      · simp only [insertEntry, if_neg h1, if_pos ((pathLtB_iff k e.1).mpr h2),
          keys_cons, List.mem_cons]
      · simp only [insertEntry, if_neg h1,
          if_neg (fun hx => h2 ((pathLtB_iff k e.1).mp hx)),
          keys_cons, List.mem_cons, ih]
        tauto

theorem keys_insertEntry_sorted {m : List (Path × List Path)}
    (hs : (keys m).Sorted (· < ·)) (k v : Path) :
    (keys (insertEntry m k v)).Sorted (· < ·) := by
  induction m with
  | nil => simp [insertEntry, keys]
  | cons e rest ih =>
    rw [keys_cons, List.sorted_cons] at hs
    obtain ⟨hlt, hrest⟩ := hs
    by_cases h1 : k = e.1
    · simp only [insertEntry, if_pos h1, keys_cons]
      exact List.sorted_cons.mpr ⟨hlt, hrest⟩
    · by_cases h2 : k < e.1
      · simp only [insertEntry, if_neg h1, if_pos ((pathLtB_iff k e.1).mpr h2), keys_cons]
        refine List.sorted_cons.mpr ⟨?_, List.sorted_cons.mpr ⟨hlt, hrest⟩⟩
        intro b hb
        rcases List.mem_cons.mp hb with hb | hb
        · exact hb ▸ h2
        · exact lt_trans h2 (hlt b hb)
      · simp only [insertEntry, if_neg h1,
          if_neg (fun hx => h2 ((pathLtB_iff k e.1).mp hx)), keys_cons]
        refine List.sorted_cons.mpr ⟨?_, ih hrest⟩
        intro b hb
        rcases (mem_keys_insertEntry rest k v b).mp hb with hb | hb
        · subst hb
          exact lt_of_le_of_ne (not_lt.mp h2) (fun he => h1 he.symm)
        · exact hlt b hb

theorem valueOf_insertEntry {m : List (Path × List Path)}
    (hs : (keys m).Sorted (· < ·)) (k v x : Path) :
    valueOf (insertEntry m k v) x =
      if x = k then valueOf m x ++ [v] else valueOf m x := by
  induction m with
  | nil =>
    by_cases hx : x = k <;> simp [insertEntry, valueOf, hx]
  | cons e rest ih =>
    rw [keys_cons, List.sorted_cons] at hs
    obtain ⟨hlt, hrest⟩ := hs
    by_cases h1 : k = e.1
    · simp only [insertEntry, if_pos h1]
      by_cases hx : x = k
      · have hx1 : x = e.1 := hx.trans h1
        simp only [valueOf, if_pos hx, if_pos hx1]
      · have hx1 : ¬x = e.1 := fun he => hx (he.trans h1.symm)
        simp only [valueOf, if_pos rfl, if_neg hx, if_neg hx1]
    · by_cases h2 : k < e.1
      · simp only [insertEntry, if_neg h1, if_pos ((pathLtB_iff k e.1).mpr h2)]
        by_cases hx : x = k
        · have hx1 : ¬x = e.1 := fun he => h1 (hx.symm.trans he)
          have hnm : x ∉ keys rest := by
            intro hmem
            have := hlt x hmem
            rw [hx] at this
            exact absurd (lt_trans h2 this) (lt_irrefl k)
          simp only [valueOf, if_pos hx, if_neg hx1,
            valueOf_eq_nil_of_not_mem_keys hnm]
          rfl
        · simp only [valueOf, if_neg hx]
      · simp only [insertEntry, if_neg h1,
          if_neg (fun hx => h2 ((pathLtB_iff k e.1).mp hx))]
        by_cases hx : x = e.1
        · have hxk : ¬x = k := fun he => h1 (he.symm.trans hx)
          simp only [valueOf, if_pos hx, if_neg hxk]
        · simp only [valueOf, if_neg hx, ih hrest]

theorem groupByBase_loop_sorted (entries : List (Path × Path))
    (m : List (Path × List Path)) (hs : (keys m).Sorted (· < ·)) :
    (keys (entries.foldl (fun m e => insertEntry m e.1 e.2) m)).Sorted (· < ·) := by
  induction entries generalizing m with
  | nil => exact hs
  | cons e rest ih => exact ih _ (keys_insertEntry_sorted hs e.1 e.2)

theorem keys_groupByBase_sorted (entries : List (Path × Path)) :
    (keys (groupByBase entries)).Sorted (· < ·) :=
  groupByBase_loop_sorted entries [] (by simp [keys])

theorem valueOf_groupByBase_loop (entries : List (Path × Path))
    (m : List (Path × List Path)) (hs : (keys m).Sorted (· < ·)) (x : Path) :
    valueOf (entries.foldl (fun m e => insertEntry m e.1 e.2) m) x =
      valueOf m x ++ ((entries.filter (fun e => e.1 = x)).map Prod.snd) := by
  induction entries generalizing m with
  | nil => simp
  | cons e rest ih =>
    rw [List.foldl_cons, ih _ (keys_insertEntry_sorted hs e.1 e.2),
      valueOf_insertEntry hs]
    by_cases hx : e.1 = x
    · rw [if_pos hx.symm, List.filter_cons_of_pos (by simp [hx]), List.map_cons,
        List.append_assoc]
      rfl
    · rw [if_neg (fun he => hx he.symm), List.filter_cons_of_neg (by simp [hx])]

theorem valueOf_groupByBase (entries : List (Path × Path)) (x : Path) :
    valueOf (groupByBase entries) x =
      (entries.filter (fun e => e.1 = x)).map Prod.snd := by
  have h := valueOf_groupByBase_loop entries [] (by simp [keys]) x
  simpa [valueOf] using h

theorem mem_keys_groupByBase_loop (entries : List (Path × Path))
    (m : List (Path × List Path)) (x : Path) :
    x ∈ keys (entries.foldl (fun m e => insertEntry m e.1 e.2) m) ↔
      x ∈ keys m ∨ x ∈ entries.map Prod.fst := by
  induction entries generalizing m with
  | nil => simp
  | cons e rest ih =>
    rw [List.foldl_cons, ih, mem_keys_insertEntry, List.map_cons, List.mem_cons]
    tauto

theorem mem_keys_groupByBase (entries : List (Path × Path)) (x : Path) :
    x ∈ keys (groupByBase entries) ↔ x ∈ entries.map Prod.fst := by
  have h := mem_keys_groupByBase_loop entries [] x
  simpa [keys] using h

theorem assoc_eq_of_keys_values {m₁ m₂ : List (Path × List Path)}
    (h₁ : (keys m₁).Sorted (· < ·)) (h₂ : (keys m₂).Sorted (· < ·))
    (hk : keys m₁ = keys m₂) (hv : ∀ k, valueOf m₁ k = valueOf m₂ k) :
    m₁ = m₂ := by
  induction m₁ generalizing m₂ with
  | nil =>
    cases m₂ with
    | nil => rfl
    | cons f rest₂ => simp [keys] at hk
  | cons e rest ih =>
    cases m₂ with
    | nil => simp [keys] at hk
    | cons f rest₂ =>
      rw [keys_cons, keys_cons] at hk
      injection hk with hk1 hk2
      rw [keys_cons, List.sorted_cons] at h₁ h₂
      have hval : e.2 = f.2 := by
        have hx := hv e.1
        rw [valueOf, valueOf, if_pos rfl, if_pos hk1] at hx
        exact hx
      have hrest : rest = rest₂ := by
        refine ih h₁.2 h₂.2 hk2 ?_
        intro k
        by_cases hke : k = e.1
        · have hn₁ : k ∉ keys rest := by
            intro hmem
            exact absurd (hke ▸ h₁.1 k hmem) (lt_irrefl _)
          have hn₂ : k ∉ keys rest₂ := by
            intro hmem
            have := h₂.1 k hmem
            rw [← hk1] at this
            exact absurd (hke ▸ this) (lt_irrefl _)
          rw [valueOf_eq_nil_of_not_mem_keys hn₁, valueOf_eq_nil_of_not_mem_keys hn₂]
        · have hx := hv k
          have hkf : ¬k = f.1 := fun he => hke (he.trans hk1.symm)
          rw [valueOf, valueOf, if_neg hke, if_neg hkf] at hx
          exact hx
      rw [hrest, Prod.ext_iff.mpr ⟨hk1, hval⟩]

theorem assoc_eq_keys_map_valueOf {m : List (Path × List Path)}
    (hs : (keys m).Sorted (· < ·)) :
    m = (keys m).map (fun k => (k, valueOf m k)) := by
  induction m with
  | nil => rfl
  | cons e rest ih =>
    rw [keys_cons, List.sorted_cons] at hs
    rw [keys_cons, List.map_cons]
    have hhead : (e.1, valueOf (e :: rest) e.1) = e := by
      rw [valueOf, if_pos rfl]
    rw [hhead]
    congr 1
    have hmapeq : (keys rest).map (fun k => (k, valueOf (e :: rest) k)) =
        (keys rest).map (fun k => (k, valueOf rest k)) := by
      refine List.map_congr_left ?_
      intro k hk
      have hke : ¬k = e.1 := by
        intro he
        exact absurd (he ▸ hs.1 k hk) (lt_irrefl _)
      rw [valueOf, if_neg hke]
    rw [hmapeq]
    exact ih hs.2

theorem find_entry_perm {β : Type} {l₁ l₂ : List (Path × β)} (h : l₁.Perm l₂)
    (nd : (l₁.map Prod.fst).Nodup) (p : Path) :
    l₁.find? (fun e => e.1 = p) = l₂.find? (fun e => e.1 = p) := by
  induction h with
  | nil => rfl
  | cons x h ih =>
    rw [List.map_cons, List.nodup_cons] at nd
    by_cases hx : x.1 = p
    · simp [List.find?_cons, hx]
    · have hd : decide (x.1 = p) = false := decide_eq_false hx
      simp only [List.find?_cons, hd]
      exact ih nd.2
  | swap x y l =>
    rw [List.map_cons, List.map_cons, List.nodup_cons, List.nodup_cons] at nd
    have hxy : y.1 ≠ x.1 := fun he =>
      nd.1 (he ▸ List.mem_cons_self _ _)
    by_cases hx : x.1 = p <;> by_cases hy : y.1 = p
    · exact absurd (hy.trans hx.symm) hxy
    · simp [List.find?_cons, hx, hy]
    · simp [List.find?_cons, hx, hy]
    · simp [List.find?_cons, hx, hy]
  | trans h₁ h₂ ih₁ ih₂ =>
    rw [ih₁ nd]
    exact ih₂ ((h₁.map Prod.fst).nodup_iff.mp nd)

theorem findMeta_perm {l₁ l₂ : List (Path × Meta)} (h : l₁.Perm l₂)
    (nd : (l₁.map Prod.fst).Nodup) (p : Path) :
    findMeta l₁ p = findMeta l₂ p := by
  rw [findMeta, findMeta, find_entry_perm h nd p]

theorem stat_candidate_files_perm {fs fs' : FileSys} (h : fs.files.Perm fs'.files)
    (nd : (fs.files.map Prod.fst).Nodup) (p : Path) (b : Bool) (lbl : String) :
    stat_candidate fs p b lbl = stat_candidate fs' p b lbl := by
  rw [stat_candidate, stat_candidate, findMeta_perm h nd p]

/-! ### C5 — `newest_idx` / `oldest_idx` -/

/-- C5 counterexample: both candidates carry the same modification time 5, yet
`newest_idx` returns index 1, not the first occurrence 0 — Rust
`max_by_key` keeps the last maximal element, so the claim's "first occurrence
wins for both queries" fails for `newest_idx`. -/
theorem newest_idx_tie_last_not_first :
    c5tie.candidates[0]?.bind Candidate.modified = some 5 ∧
    c5tie.candidates[1]?.bind Candidate.modified = some 5 ∧
    c5tie.newest_idx = some 1 ∧ c5tie.newest_idx ≠ some 0 := by
  refine ⟨rfl, rfl, ?_, ?_⟩
  · rfl
  · intro h
    simp only [show c5tie.newest_idx = some 1 from rfl] at h
    exact absurd (Option.some.inj h) (by decide)

/-- C5 (amended): `newest_idx` (resp. `oldest_idx`) returns `none` exactly when
no candidate has a modification time; otherwise it returns the index of a
candidate holding the maximum (resp. minimum) modification time among the
candidates that have one, and on ties the LAST occurrence wins for
`newest_idx` while the first occurrence wins for `oldest_idx`.  (Both queries
are pure functions of the group in this embedding, matching the `&self`
receivers in the source.) -/
theorem newest_oldest_idx_spec (g : ConflictGroup) :
    (g.newest_idx = none ↔ ∀ c ∈ g.candidates, c.modified = none) ∧
    (g.oldest_idx = none ↔ ∀ c ∈ g.candidates, c.modified = none) ∧
    (∀ i, g.newest_idx = some i →
      ∃ m, g.candidates[i]?.bind Candidate.modified = some m ∧
        ∀ j t, g.candidates[j]?.bind Candidate.modified = some t →
          t ≤ m ∧ (i < j → t < m)) ∧
    (∀ i, g.oldest_idx = some i →
      ∃ m, g.candidates[i]?.bind Candidate.modified = some m ∧
        ∀ j t, g.candidates[j]?.bind Candidate.modified = some t →
          m ≤ t ∧ (j < i → m < t)) := by
  have hmono := mtimePairs_fst_mono g
  refine ⟨?_, ?_, ?_, ?_⟩
  · rw [ConflictGroup.newest_idx, Option.map_eq_none', maxByKeyLast_eq_none_iff]
    exact mtimePairs_eq_nil_iff g
  · rw [ConflictGroup.oldest_idx, Option.map_eq_none', minByKeyFirst_eq_none_iff]
    exact mtimePairs_eq_nil_iff g
  · intro i hi
    rw [ConflictGroup.newest_idx, Option.map_eq_some'] at hi
    obtain ⟨r, hmax, hi'⟩ := hi
    obtain ⟨hbound, l₁, l₂, heq, hlast⟩ := maxByKeyLast_split hmax
    have hrmem : (r.1, r.2) ∈ mtimePairs g := by rw [heq]; simp
    refine ⟨r.2, ?_, ?_⟩
    · have hm := (mem_mtimePairs g r.1 r.2).mp hrmem
      rwa [hi'] at hm
    intro j t ht
    have hjt : (j, t) ∈ mtimePairs g := (mem_mtimePairs g j t).mpr ht
    refine ⟨hbound _ hjt, ?_⟩
    intro hij
    rw [heq] at hjt hmono
    rcases List.mem_append.mp hjt with h1 | h2
    · exfalso
      have hlt := (List.pairwise_append.mp hmono).2.2 _ h1 r (List.mem_cons_self _ _)
      rw [hi'] at hlt
      exact absurd hij (not_lt_of_gt hlt)
    · rcases List.mem_cons.mp h2 with h3 | h4
      · exfalso
        have hji : j = i := by rw [← hi', ← h3]
        exact absurd hij (hji ▸ lt_irrefl j)
      · exact hlast _ h4
  · intro i hi
    rw [ConflictGroup.oldest_idx, Option.map_eq_some'] at hi
    obtain ⟨r, hmin, hi'⟩ := hi
    obtain ⟨hbound, l₁, l₂, heq, hfirst⟩ := minByKeyFirst_split hmin
    have hrmem : (r.1, r.2) ∈ mtimePairs g := by rw [heq]; simp
    refine ⟨r.2, ?_, ?_⟩
    · have hm := (mem_mtimePairs g r.1 r.2).mp hrmem
      rwa [hi'] at hm
    intro j t ht
    have hjt : (j, t) ∈ mtimePairs g := (mem_mtimePairs g j t).mpr ht
    refine ⟨hbound _ hjt, ?_⟩
    intro hij
    rw [heq] at hjt hmono
    rcases List.mem_append.mp hjt with h1 | h2
    · exact hfirst _ h1
    · rcases List.mem_cons.mp h2 with h3 | h4
      · exfalso
        have hji : j = i := by rw [← hi', ← h3]
        exact absurd hij (hji ▸ lt_irrefl j)
      · exfalso
        have hlt := (List.pairwise_cons.mp (List.pairwise_append.mp hmono).2.1).1 _ h4
        rw [hi'] at hlt
        exact absurd hij (not_lt_of_gt hlt)

theorem newest_oldest_idx_spec_witness :
    c5ex.newest_idx = some 2 ∧ c5ex.oldest_idx = some 1 ∧
    (∃ m, c5ex.candidates[2]?.bind Candidate.modified = some m ∧
      ∀ j t, c5ex.candidates[j]?.bind Candidate.modified = some t →
        t ≤ m ∧ (2 < j → t < m)) ∧
    (∃ m, c5ex.candidates[1]?.bind Candidate.modified = some m ∧
      ∀ j t, c5ex.candidates[j]?.bind Candidate.modified = some t →
        m ≤ t ∧ (j < 1 → m < t)) :=
  ⟨rfl, rfl, (newest_oldest_idx_spec c5ex).2.2.1 2 rfl,
    (newest_oldest_idx_spec c5ex).2.2.2 1 rfl⟩


/-! ### Lemmas about `buildCandidates` and `scanEntries` -/

theorem eraseLabel_stat (fs : FileSys) (p : Path) (b : Bool) (lbl : String) :
    eraseLabel (stat_candidate fs p b lbl) = stat_candidate fs p b "" := rfl

theorem buildCandidates_eq (fs : FileSys) (b : Path) (ps : List Path) :
    buildCandidates fs b ps =
      stat_candidate fs b true "Original" ::
        List.insertionSort candLe
          (ps.enum.map (fun ip =>
            stat_candidate fs ip.2 false ("Conflict " ++ toString (ip.1 + 1)))) := by
  have hmem : ∀ c ∈ ps.enum.map (fun ip =>
      stat_candidate fs ip.2 false ("Conflict " ++ toString (ip.1 + 1))),
      c.is_original = false := by
    intro c hc
    obtain ⟨ip, _, rfl⟩ := List.mem_map.mp hc
    rfl
  have hpos : (fun c : Candidate => c.is_original)
      (stat_candidate fs b true "Original") = true := rfl
  have hneg : ¬ (not ∘ fun c : Candidate => c.is_original)
      (stat_candidate fs b true "Original") = true :=
    fun hx => (by decide : ¬ (false = true)) hx
  have hnil : List.filter (fun c : Candidate => c.is_original)
      (ps.enum.map (fun ip =>
        stat_candidate fs ip.2 false ("Conflict " ++ toString (ip.1 + 1)))) = [] :=
    List.filter_eq_nil_iff.mpr (fun c hc => by simp [hmem c hc])
  have hself : List.filter (not ∘ fun c : Candidate => c.is_original)
      (ps.enum.map (fun ip =>
        stat_candidate fs ip.2 false ("Conflict " ++ toString (ip.1 + 1)))) =
      ps.enum.map (fun ip =>
        stat_candidate fs ip.2 false ("Conflict " ++ toString (ip.1 + 1))) :=
    List.filter_eq_self.mpr (fun c hc => by simp [Function.comp, hmem c hc])
  simp only [buildCandidates, List.partition_eq_filter_filter,
    List.filter_cons_of_pos hpos, List.filter_cons_of_neg hneg, hnil, hself]
  rfl

theorem conflicts_map_path (fs : FileSys) (ps : List Path) :
    (ps.enum.map (fun ip => stat_candidate fs ip.2 false
      ("Conflict " ++ toString (ip.1 + 1)))).map Candidate.path = ps := by
  rw [List.map_map]
  have h : (Candidate.path ∘ fun ip : Nat × Path => stat_candidate fs ip.2 false
      ("Conflict " ++ toString (ip.1 + 1))) = Prod.snd := rfl
  rw [h, List.enum_map_snd]

theorem buildCandidates_head (fs : FileSys) (b : Path) (ps : List Path) :
    ∃ c, (buildCandidates fs b ps).head? = some c ∧ c.is_original = true := by
  rw [buildCandidates_eq]
  exact ⟨_, rfl, rfl⟩

theorem buildCandidates_drop_sorted (fs : FileSys) (b : Path) (ps : List Path)
    (hnd : ps.Nodup) :
    (((buildCandidates fs b ps).drop 1).map Candidate.path).Sorted (· < ·) := by
  rw [buildCandidates_eq]
  have hsle := List.sorted_insertionSort candLe
    (ps.enum.map (fun ip => stat_candidate fs ip.2 false
      ("Conflict " ++ toString (ip.1 + 1))))
  have hmaple : ((List.insertionSort candLe
      (ps.enum.map (fun ip => stat_candidate fs ip.2 false
        ("Conflict " ++ toString (ip.1 + 1))))).map Candidate.path).Sorted (· ≤ ·) :=
    List.pairwise_map.mpr hsle
  have hperm : ((List.insertionSort candLe
      (ps.enum.map (fun ip => stat_candidate fs ip.2 false
        ("Conflict " ++ toString (ip.1 + 1))))).map Candidate.path).Perm ps := by
    have h1 := (List.perm_insertionSort candLe
      (ps.enum.map (fun ip => stat_candidate fs ip.2 false
        ("Conflict " ++ toString (ip.1 + 1))))).map Candidate.path
    rw [conflicts_map_path] at h1
    exact h1
  exact hmaple.lt_of_le (hperm.nodup_iff.mpr hnd)

theorem buildCandidates_erase (fs : FileSys) (b : Path) (ps : List Path) :
    (buildCandidates fs b ps).map eraseLabel =
      stat_candidate fs b true "" ::
        (List.insertionSort (· ≤ ·) ps).map
          (fun p => stat_candidate fs p false "") := by
  rw [buildCandidates_eq, List.map_cons, eraseLabel_stat]
  congr 1
  have h1 := List.map_insertionSort candLe candLe eraseLabel
    (ps.enum.map (fun ip => stat_candidate fs ip.2 false
      ("Conflict " ++ toString (ip.1 + 1))))
    (fun a _ b _ => Iff.rfl)
  have h2 : (ps.enum.map (fun ip => stat_candidate fs ip.2 false
      ("Conflict " ++ toString (ip.1 + 1)))).map eraseLabel =
      ps.map (fun p => stat_candidate fs p false "") := by
    rw [List.map_map]
    have he : (eraseLabel ∘ fun ip : Nat × Path => stat_candidate fs ip.2 false
        ("Conflict " ++ toString (ip.1 + 1))) =
        ((fun p => stat_candidate fs p false "") ∘ Prod.snd) := rfl
    rw [he, ← List.map_map, List.enum_map_snd]
  have h3 := List.map_insertionSort (α := Path) (· ≤ ·) candLe
    (fun p => stat_candidate fs p false "") ps (fun a _ b _ => Iff.rfl)
  rw [h1, h2, h3]

theorem classifyEntry_snd {inc : Bool} {p : Path} {bp : Path × Path}
    (h : classifyEntry inc p = some bp) : bp.2 = p := by
  unfold classifyEntry at h
  split at h
  · exact absurd h (by simp)
  · split at h
    · exact absurd h (by simp)
    · split at h
      · exact absurd h (by simp)
      · rw [← Option.some.inj h]

theorem scanEntries_map_snd (files : List (Path × Meta)) (inc : Bool) :
    (scanEntries files inc).map Prod.snd =
      (files.map Prod.fst).filter (fun p => (classifyEntry inc p).isSome) := by
  induction files with
  | nil => rfl
  | cons e rest ihr =>
    rw [scanEntries, List.filterMap_cons, List.map_cons, List.filter_cons]
    cases hc : classifyEntry inc e.1 with
    | none =>
      rw [scanEntries] at ihr
      simp [hc, ihr]
    | some bp =>
      have hsnd : bp.2 = e.1 := classifyEntry_snd hc
      rw [scanEntries] at ihr
      simp [hc, ihr, hsnd]

theorem value_mem_assoc {m : List (Path × List Path)}
    (hs : (keys m).Sorted (· < ·)) {kv : Path × List Path} (hkv : kv ∈ m) :
    kv.2 = valueOf m kv.1 := by
  rw [assoc_eq_keys_map_valueOf hs] at hkv
  obtain ⟨k, _, hk⟩ := List.mem_map.mp hkv
  have h1 : k = kv.1 := congrArg Prod.fst hk
  have h2 : valueOf m k = kv.2 := congrArg Prod.snd hk
  rw [← h2, h1]

theorem valueOf_groupByBase_nodup (files : List (Path × Meta)) (inc : Bool)
    (hnd : (files.map Prod.fst).Nodup) (k : Path) :
    (valueOf (groupByBase (scanEntries files inc)) k).Nodup := by
  rw [valueOf_groupByBase]
  have hnds : ((scanEntries files inc).map Prod.snd).Nodup := by
    rw [scanEntries_map_snd]
    exact hnd.filter _
  exact hnds.sublist ((List.filter_sublist (scanEntries files inc)).map Prod.snd)

theorem valueOf_groupByBase_perm {e₁ e₂ : List (Path × Path)}
    (h : e₁.Perm e₂) (k : Path) :
    (valueOf (groupByBase e₁) k).Perm (valueOf (groupByBase e₂) k) := by
  rw [valueOf_groupByBase, valueOf_groupByBase]
  exact (h.filter _).map _

theorem keys_groupByBase_perm {e₁ e₂ : List (Path × Path)} (h : e₁.Perm e₂) :
    keys (groupByBase e₁) = keys (groupByBase e₂) := by
  have hs₁ := keys_groupByBase_sorted e₁
  have hs₂ := keys_groupByBase_sorted e₂
  have hnd₁ : (keys (groupByBase e₁)).Nodup := hs₁.imp ne_of_lt
  have hnd₂ : (keys (groupByBase e₂)).Nodup := hs₂.imp ne_of_lt
  have hmem : ∀ x, x ∈ keys (groupByBase e₁) ↔ x ∈ keys (groupByBase e₂) := by
    intro x
    rw [mem_keys_groupByBase, mem_keys_groupByBase]
    exact (h.map Prod.fst).mem_iff
  have hperm := (List.perm_ext_iff_of_nodup hnd₁ hnd₂).mpr hmem
  haveI : IsAntisymm Path (· < ·) := ⟨fun _ _ h₁ h₂ => absurd h₂ (lt_asymm h₁)⟩
  exact List.eq_of_perm_of_sorted hperm hs₁ hs₂

theorem sort_valueOf_groupByBase_eq {e₁ e₂ : List (Path × Path)}
    (h : e₁.Perm e₂) (k : Path) :
    List.insertionSort (· ≤ ·) (valueOf (groupByBase e₁) k) =
      List.insertionSort (· ≤ ·) (valueOf (groupByBase e₂) k) := by
  haveI : IsAntisymm Path (· ≤ ·) := ⟨fun _ _ => le_antisymm⟩
  refine List.eq_of_perm_of_sorted ?_
    (List.sorted_insertionSort _ _) (List.sorted_insertionSort _ _)
  exact (List.perm_insertionSort _ _).trans
    ((valueOf_groupByBase_perm h k).trans (List.perm_insertionSort _ _).symm)


/-! ### C3 and C4 — scan invariants, order independence, labels -/

/-- C3: every group produced by `scan_conflicts` starts with the
original-flagged candidate (whether or not the original file exists on disk),
the remaining candidates are sorted strictly ascending by path, and — apart
from the labels, which are settled separately in C4 — the scan result is
identical for every enumeration order of the directory walk (any permutation
of the walked file list; a walk enumerates each file once, whence the
no-duplicates hypothesis). -/
theorem scan_conflicts_deterministic (fs fs' : FileSys) (inc : Bool)
    (hperm : fs.files.Perm fs'.files)
    (hnd : (fs.files.map Prod.fst).Nodup) :
    (∀ g ∈ scan_conflicts fs inc,
        (∃ c, g.candidates.head? = some c ∧ c.is_original = true) ∧
        ((g.candidates.drop 1).map Candidate.path).Sorted (· < ·)) ∧
    (scan_conflicts fs inc).map eraseLabels =
      (scan_conflicts fs' inc).map eraseLabels := by
  constructor
  · intro g hg
    obtain ⟨kv, hkv, rfl⟩ := List.mem_map.mp hg
    refine ⟨buildCandidates_head fs kv.1 kv.2, ?_⟩
    have hv : kv.2 = valueOf (groupByBase (scanEntries fs.files inc)) kv.1 :=
      value_mem_assoc (keys_groupByBase_sorted _) hkv
    have hndv : kv.2.Nodup := by
      rw [hv]
      exact valueOf_groupByBase_nodup fs.files inc hnd kv.1
    exact buildCandidates_drop_sorted fs kv.1 kv.2 hndv
  · have hpe : (scanEntries fs.files inc).Perm (scanEntries fs'.files inc) :=
      hperm.filterMap _
    have hkeys := keys_groupByBase_perm hpe
    rw [scan_conflicts, scan_conflicts, List.map_map, List.map_map,
      assoc_eq_keys_map_valueOf
        (keys_groupByBase_sorted (scanEntries fs.files inc)),
      assoc_eq_keys_map_valueOf
        (keys_groupByBase_sorted (scanEntries fs'.files inc)),
      List.map_map, List.map_map, ← hkeys]
    refine List.map_congr_left ?_
    intro k _
    show ConflictGroup.mk k
        ((buildCandidates fs k
          (valueOf (groupByBase (scanEntries fs.files inc)) k)).map eraseLabel)
        none =
      ConflictGroup.mk k
        ((buildCandidates fs' k
          (valueOf (groupByBase (scanEntries fs'.files inc)) k)).map eraseLabel)
        none
    have hnd' : (fs'.files.map Prod.fst).Nodup :=
      ((hperm.map Prod.fst).nodup_iff).mp hnd
    congr 1
    rw [buildCandidates_erase, buildCandidates_erase,
      stat_candidate_files_perm hperm hnd k true "",
      sort_valueOf_groupByBase_eq hpe k]
    congr 1
    refine List.map_congr_left ?_
    intro p _
    exact stat_candidate_files_perm hperm hnd p false ""

/-- Witness for `scan_conflicts_deterministic`: the two-conflict-file tree
walked in both orders. -/
theorem scan_conflicts_deterministic_witness :
    (∀ g ∈ scan_conflicts c4fs true,
        (∃ c, g.candidates.head? = some c ∧ c.is_original = true) ∧
        ((g.candidates.drop 1).map Candidate.path).Sorted (· < ·)) ∧
    (scan_conflicts c4fs true).map eraseLabels =
      (scan_conflicts c3fsSorted true).map eraseLabels :=
  scan_conflicts_deterministic c4fs c3fsSorted true (by decide) (by decide)

/-- C4 counterexample: the walk enumerates the two conflict files of `n` in
reverse path order, so the labels — assigned in enumeration order before the
sort — end up out of order: the candidate at index 1 (rank 1 by ascending
path) carries the label `"Conflict 2"`, not `"Conflict 1"` as the claim
requires. -/
theorem conflict_label_rank_counterexample :
    (scan_conflicts c4fs true).map
        (fun g => g.candidates.map (fun c => (c.path, c.label))) =
      [[(["n"], "Original"),
        (["n.sync-conflict-A"], "Conflict 2"),
        (["n.sync-conflict-B"], "Conflict 1")]] := by
  rfl

/-- C4 (amended): a non-original candidate's label is `"Conflict N"` where
`N` is its 1-based rank among the group's conflict files in the order the
directory walk enumerated them (the labels are attached before the sort by
path, so they agree with the sorted rank only when the walk happens to
enumerate the group's conflict files in ascending path order). -/
theorem conflict_labels_follow_enumeration (fs : FileSys) (inc : Bool) :
    ∀ g ∈ scan_conflicts fs inc, ∀ c ∈ g.candidates.drop 1,
      c.is_original = false ∧
      ∃ i, (valueOf (groupByBase (scanEntries fs.files inc))
          g.base_path)[i]? = some c.path ∧
        c.label = "Conflict " ++ toString (i + 1) := by
  intro g hg c hc
  obtain ⟨kv, hkv, rfl⟩ := List.mem_map.mp hg
  have hv : kv.2 = valueOf (groupByBase (scanEntries fs.files inc)) kv.1 :=
    value_mem_assoc (keys_groupByBase_sorted _) hkv
  have hcands : (ConflictGroup.mk kv.1 (buildCandidates fs kv.1 kv.2)
      none).candidates.drop 1 =
      List.insertionSort candLe
        (kv.2.enum.map (fun ip => stat_candidate fs ip.2 false
          ("Conflict " ++ toString (ip.1 + 1)))) := by
    show (buildCandidates fs kv.1 kv.2).drop 1 = _
    rw [buildCandidates_eq, List.drop_succ_cons, List.drop_zero]
  rw [hcands] at hc
  have hcL : c ∈ kv.2.enum.map (fun ip => stat_candidate fs ip.2 false
      ("Conflict " ++ toString (ip.1 + 1))) :=
    (List.mem_insertionSort candLe).mp hc
  obtain ⟨ip, hip, rfl⟩ := List.mem_map.mp hcL
  refine ⟨rfl, ip.1, ?_, rfl⟩
  show (valueOf (groupByBase (scanEntries fs.files inc)) kv.1)[ip.1]? = some ip.2
  rw [← hv]
  exact List.mem_enum_iff_getElem?.mp hip

/-- Witness for `conflict_labels_follow_enumeration` on the concrete
reverse-order walk: its single group, obtained as the head of the scan. -/
theorem conflict_labels_follow_enumeration_witness :
    (((scan_conflicts c4fs true).headD defaultGroup).candidates.getD 1
        defaultCand).is_original = false ∧
    ∃ i, (valueOf (groupByBase (scanEntries c4fs.files true))
        ((scan_conflicts c4fs true).headD defaultGroup).base_path)[i]? =
          some (((scan_conflicts c4fs true).headD defaultGroup).candidates.getD 1
            defaultCand).path ∧
      (((scan_conflicts c4fs true).headD defaultGroup).candidates.getD 1
          defaultCand).label = "Conflict " ++ toString (i + 1) :=
  conflict_labels_follow_enumeration c4fs true
    ((scan_conflicts c4fs true).headD defaultGroup) (by decide)
    (((scan_conflicts c4fs true).headD defaultGroup).candidates.getD 1
      defaultCand) (by decide)


/-! ### Lemmas about `apply_group` -/

theorem archiveCands_spec (adir cp : Path) (millis : Nat) :
    ∀ (cands : List Candidate) (fs : FileSys),
      ((archiveCands adir cp millis fs cands).2.2 = none →
        (archiveCands adir cp millis fs cands).2.1 =
          (cands.filter (archTarget cp)).map (archMove adir millis)) ∧
      (∀ op ∈ (archiveCands adir cp millis fs cands).2.1,
        ∃ c ∈ cands, ∃ s, op = FsOp.move c.path (adir ++ [s]) ∧
          c.path ≠ cp ∧ c.«exists» = true) := by
  intro cands
  induction cands with
  | nil =>
    intro fs
    exact ⟨fun _ => rfl, by simp [archiveCands]⟩
  | cons c rest ih =>
    intro fs
    by_cases h1 : c.path = cp
    · have he : archiveCands adir cp millis fs (c :: rest) =
          archiveCands adir cp millis fs rest := by
        simp [archiveCands, h1]
      have ht : (c :: rest).filter (archTarget cp) = rest.filter (archTarget cp) :=
        List.filter_cons_of_neg (by simp [archTarget, h1])
      refine ⟨?_, ?_⟩
      · intro hnone
        rw [he] at hnone ⊢
        rw [ht]
        exact (ih fs).1 hnone
      · intro op hop
        rw [he] at hop
        obtain ⟨c', hc', hrest⟩ := (ih fs).2 op hop
        exact ⟨c', List.mem_cons_of_mem c hc', hrest⟩
    · by_cases h2 : c.«exists» = false
      · have he : archiveCands adir cp millis fs (c :: rest) =
            archiveCands adir cp millis fs rest := by
          simp [archiveCands, h1, h2]
        have ht : (c :: rest).filter (archTarget cp) = rest.filter (archTarget cp) :=
          List.filter_cons_of_neg (by simp [archTarget, h2])
        refine ⟨?_, ?_⟩
        · intro hnone
          rw [he] at hnone ⊢
          rw [ht]
          exact (ih fs).1 hnone
        · intro op hop
          rw [he] at hop
          obtain ⟨c', hc', hrest⟩ := (ih fs).2 op hop
          exact ⟨c', List.mem_cons_of_mem c hc', hrest⟩
      · have h2' : c.«exists» = true := by
          cases hx : c.«exists» with
          | false => exact absurd hx h2
          | true => rfl
        rcases hn : fileNameOf c.path with _ | name
        · have he : archiveCands adir cp millis fs (c :: rest) =
              (fs, [], some "bad name") := by
            simp [archiveCands, h1, h2, hn]
          refine ⟨?_, ?_⟩
          · intro hnone
            rw [he] at hnone
            exact absurd hnone (by simp)
          · intro op hop
            rw [he] at hop
            exact absurd hop (by simp)
        · rcases hmv : move_file fs c.path (adir ++ [unique_name name millis])
            with e | fs2
          · have he : archiveCands adir cp millis fs (c :: rest) =
                (fs, [], some ("archive " ++ pathStr c.path ++ ": " ++ e)) := by
              simp [archiveCands, h1, h2, hn, hmv]
            refine ⟨?_, ?_⟩
            · intro hnone
              rw [he] at hnone
              exact absurd hnone (by simp)
            · intro op hop
              rw [he] at hop
              exact absurd hop (by simp)
          · have he : archiveCands adir cp millis fs (c :: rest) =
                ((archiveCands adir cp millis fs2 rest).1,
                  FsOp.move c.path (adir ++ [unique_name name millis]) ::
                    (archiveCands adir cp millis fs2 rest).2.1,
                  (archiveCands adir cp millis fs2 rest).2.2) := by
              simp [archiveCands, h1, h2, hn, hmv]
            have hname : c.path.getLastD "" = name := by
              rw [List.getLastD_eq_getLast?,
                show c.path.getLast? = some name from hn]
              rfl
            refine ⟨?_, ?_⟩
            · intro hnone
              rw [he] at hnone ⊢
              simp only at hnone
              rw [List.filter_cons_of_pos (by simp [archTarget, h1, h2']),
                List.map_cons, (ih fs2).1 hnone]
              rw [archMove, hname]
            · intro op hop
              rw [he] at hop
              rcases List.mem_cons.mp hop with hop | hop
              · exact ⟨c, List.mem_cons_self _ _,
                  unique_name name millis, hop, h1, h2'⟩
              · obtain ⟨c', hc', hrest⟩ := (ih fs2).2 op hop
                exact ⟨c', List.mem_cons_of_mem c hc', hrest⟩

theorem archive_dir_for_ok {base : Path} (hbase : base ≠ []) :
    archive_dir_for base =
      Except.ok (base.dropLast ++ [".stconflict-archive"]) := by
  rcases base with _ | ⟨x, rest⟩
  · exact absurd rfl hbase
  · rfl

theorem archive_dest_ne_base {base : Path} {s : String} (hbase : base ≠ []) :
    (base.dropLast ++ [".stconflict-archive"]) ++ [s] ≠ base := by
  intro he
  have hlen := congrArg List.length he
  rcases base with _ | ⟨x, rest⟩
  · exact absurd rfl hbase
  · simp [List.length_dropLast] at hlen

theorem apply_group_nil_base (a : Bool) (fs : FileSys) (g : ConflictGroup)
    (ci millis : Nat) (hb : g.base_path = []) :
    apply_group a fs g ci millis = (fs, [], some "no parent") := by
  simp [apply_group, archive_dir_for, parentOf, hb]

/-- Case analysis of the mutation log of `apply_group` in apply mode: it is
the `ensure_dir` of the archive directory, then some archive moves, then
possibly the keeper move; on success the archive moves and the keeper part
are exactly determined. -/
theorem apply_group_trace_cases (fs : FileSys) (g : ConflictGroup)
    (ci millis : Nat) (hbase : g.base_path ≠ []) :
    ∃ tail keeper,
      (apply_group true fs g ci millis).2.1 =
        FsOp.ensureDir (g.base_path.dropLast ++ [".stconflict-archive"]) ::
          tail ++ keeper ∧
      (∀ op ∈ tail, ∃ c ∈ g.candidates, ∃ s,
        op = FsOp.move c.path
          ((g.base_path.dropLast ++ [".stconflict-archive"]) ++ [s]) ∧
        c.path ≠ (g.candidates.getD ci defaultCand).path ∧
        c.«exists» = true) ∧
      (keeper = [] ∨
        keeper = [FsOp.move (g.candidates.getD ci defaultCand).path g.base_path]) ∧
      ((apply_group true fs g ci millis).2.2 = none →
        tail = (g.candidates.filter
            (archTarget (g.candidates.getD ci defaultCand).path)).map
          (archMove (g.base_path.dropLast ++ [".stconflict-archive"]) millis) ∧
        keeper = (if (g.candidates.getD ci defaultCand).path = g.base_path
          then ([] : List FsOp)
          else [FsOp.move (g.candidates.getD ci defaultCand).path g.base_path])) := by
  have harch := archive_dir_for_ok hbase
  have hspec := archiveCands_spec (g.base_path.dropLast ++ [".stconflict-archive"])
    ((g.candidates.getD ci defaultCand).path) millis g.candidates
    (ensureDirFs fs (g.base_path.dropLast ++ [".stconflict-archive"]))
  simp only [apply_group, harch, Bool.not_true, Bool.false_eq_true, if_false]
  set adir := g.base_path.dropLast ++ [".stconflict-archive"] with hadir
  set cp := (g.candidates.getD ci defaultCand).path with hcp
  set fs1 := ensureDirFs fs adir with hfs1
  set r := archiveCands adir cp millis fs1 g.candidates with hr
  rcases hre : r.2.2 with _ | e
  · simp only [hre]
    by_cases hcb : cp = g.base_path
    · simp only [if_pos hcb]
      refine ⟨r.2.1, [], by simp, hspec.2, Or.inl rfl, ?_⟩
      intro _
      exact ⟨hspec.1 hre, rfl⟩
    · simp only [if_neg hcb]
      rcases hmv : move_file r.1 cp g.base_path with e2 | fs2
      · simp only [hmv]
        refine ⟨r.2.1, [], by simp, hspec.2, Or.inl rfl, ?_⟩
        intro hx
        exact absurd hx (by simp)
      · simp only [hmv]
        refine ⟨r.2.1, [FsOp.move cp g.base_path], rfl, hspec.2, Or.inr rfl, ?_⟩
        intro _
        exact ⟨hspec.1 hre, rfl⟩
  · simp only [hre]
    refine ⟨r.2.1, [], by simp, hspec.2, Or.inl rfl, ?_⟩
    intro hx
    exact absurd hx (by simp)

/-- C1: in apply mode with a chosen candidate, `apply_group` first ensures
the archive directory exists (the log's head); on success the log is exactly
that `ensure_dir`, then one archive move per candidate whose path differs
from the keeper's and whose `exists` flag is set, in candidate order, then —
only when the keeper's path differs from the group's base path — the move of
the keeper to the base path as the final operation; and unconditionally a
keeper move, if it appears in the log at all, is the last entry, so it never
precedes an archive move. -/
theorem apply_group_apply_order (fs : FileSys) (g : ConflictGroup)
    (ci millis : Nat) (hbase : g.base_path ≠ []) :
    (apply_group true fs g ci millis).2.1.head? =
        some (FsOp.ensureDir (g.base_path.dropLast ++ [".stconflict-archive"])) ∧
    ((apply_group true fs g ci millis).2.2 = none →
      (apply_group true fs g ci millis).2.1 =
        FsOp.ensureDir (g.base_path.dropLast ++ [".stconflict-archive"]) ::
          (g.candidates.filter
              (archTarget (g.candidates.getD ci defaultCand).path)).map
            (archMove (g.base_path.dropLast ++ [".stconflict-archive"]) millis) ++
          (if (g.candidates.getD ci defaultCand).path = g.base_path then []
            else [FsOp.move (g.candidates.getD ci defaultCand).path g.base_path])) ∧
    ((apply_group true fs g ci millis).2.1.getLast? =
        some (FsOp.move (g.candidates.getD ci defaultCand).path g.base_path) ∨
      FsOp.move (g.candidates.getD ci defaultCand).path g.base_path ∉
        (apply_group true fs g ci millis).2.1) := by
  obtain ⟨tail, keeper, htr, htail, hkeep, hsucc⟩ :=
    apply_group_trace_cases fs g ci millis hbase
  have htailne : ∀ op ∈ tail,
      op ≠ FsOp.move (g.candidates.getD ci defaultCand).path g.base_path := by
    intro op hop heq
    obtain ⟨c, _, s, hform, _, _⟩ := htail op hop
    rw [heq] at hform
    have hdst : g.base_path =
        (g.base_path.dropLast ++ [".stconflict-archive"]) ++ [s] := by
      injection hform
    exact archive_dest_ne_base hbase hdst.symm
  refine ⟨by rw [htr]; rfl, ?_, ?_⟩
  · intro hnone
    obtain ⟨ht, hk⟩ := hsucc hnone
    rw [htr, ht, hk]
  · rcases hkeep with hk | hk
    · refine Or.inr ?_
      rw [htr, hk, List.append_nil]
      intro hmem
      rcases List.mem_cons.mp hmem with h | h
      · exact FsOp.noConfusion h
      · exact htailne _ h rfl
    · refine Or.inl ?_
      rw [htr, hk]
      rw [show FsOp.ensureDir (g.base_path.dropLast ++ [".stconflict-archive"]) ::
          tail ++ [FsOp.move (g.candidates.getD ci defaultCand).path g.base_path] =
          (FsOp.ensureDir (g.base_path.dropLast ++ [".stconflict-archive"]) :: tail) ++
            [FsOp.move (g.candidates.getD ci defaultCand).path g.base_path] from rfl]
      exact List.getLast?_concat _

/-- Witness for `apply_group_apply_order`: applying group `c1g` (keeper
`d/n1`, live conflict `d/n2`, absent original `d/n`) on `c1fs`. -/
theorem apply_group_apply_order_witness :
    c1g.base_path ≠ [] ∧
    ((apply_group true c1fs c1g 1 77).2.1.head? =
        some (FsOp.ensureDir (c1g.base_path.dropLast ++ [".stconflict-archive"])) ∧
    ((apply_group true c1fs c1g 1 77).2.2 = none →
      (apply_group true c1fs c1g 1 77).2.1 =
        FsOp.ensureDir (c1g.base_path.dropLast ++ [".stconflict-archive"]) ::
          (c1g.candidates.filter
              (archTarget (c1g.candidates.getD 1 defaultCand).path)).map
            (archMove (c1g.base_path.dropLast ++ [".stconflict-archive"]) 77) ++
          (if (c1g.candidates.getD 1 defaultCand).path = c1g.base_path then []
            else [FsOp.move (c1g.candidates.getD 1 defaultCand).path c1g.base_path])) ∧
    ((apply_group true c1fs c1g 1 77).2.1.getLast? =
        some (FsOp.move (c1g.candidates.getD 1 defaultCand).path c1g.base_path) ∨
      FsOp.move (c1g.candidates.getD 1 defaultCand).path c1g.base_path ∉
        (apply_group true c1fs c1g 1 77).2.1)) :=
  ⟨by decide, apply_group_apply_order c1fs c1g 1 77 (by decide)⟩

/-- C6 counterexample: candidate `d/x` is present on disk at apply time but
was recorded with `exists = false` at scan time; `apply_group` consults only
the recorded flag, so the candidate is silently skipped — the whole log is
the `ensure_dir`, no move touches `d/x`, and the run still succeeds leaving
`d/x` on disk.  Under the claim (decision by current disk state) `d/x`, a
non-keeper that exists on disk, would have been archived. -/
theorem apply_group_ignores_current_disk_state :
    (findMeta c6fs.files ["d", "x"]).isSome = true ∧
    (c6g.candidates.getD 1 defaultCand).path = ["d", "x"] ∧
    (c6g.candidates.getD 1 defaultCand).«exists» = false ∧
    (c6g.candidates.getD 0 defaultCand).path ≠ ["d", "x"] ∧
    (apply_group true c6fs c6g 0 77).2.1 =
      [FsOp.ensureDir ["d", ".stconflict-archive"]] ∧
    (apply_group true c6fs c6g 0 77).2.2 = none ∧
    (findMeta (apply_group true c6fs c6g 0 77).1.files ["d", "x"]).isSome = true := by
  decide

/-- C6 (amended): the decision whether to archive a non-keeper candidate is
based on the `exists` flag recorded at scan time, not on the state of the
disk at apply time: a candidate recorded as absent is never moved (even if
its path resolves on disk), and on a successful apply every candidate
recorded as present was moved (the move's attempt does not re-check the
disk; if the file vanished the attempt simply fails). -/
theorem apply_group_exists_flag_decides (fs : FileSys) (g : ConflictGroup)
    (ci millis : Nat) (c : Candidate)
    (hc : c ∈ g.candidates)
    (hnd : (g.candidates.map Candidate.path).Nodup)
    (hne : c.path ≠ (g.candidates.getD ci defaultCand).path) :
    (c.«exists» = false →
      ∀ dst, FsOp.move c.path dst ∉ (apply_group true fs g ci millis).2.1) ∧
    ((apply_group true fs g ci millis).2.2 = none → c.«exists» = true →
      ∃ dst, FsOp.move c.path dst ∈ (apply_group true fs g ci millis).2.1) := by
  by_cases hbase : g.base_path = []
  · rw [apply_group_nil_base true fs g ci millis hbase]
    refine ⟨?_, ?_⟩
    · intro _ dst hmem
      exact absurd hmem (by simp)
    · intro hx
      exact absurd hx (by simp)
  · obtain ⟨tail, keeper, htr, htail, hkeep, hsucc⟩ :=
      apply_group_trace_cases fs g ci millis hbase
    refine ⟨?_, ?_⟩
    · intro hex dst hmem
      rw [htr] at hmem
      rcases List.mem_cons.mp hmem with h | h
      · exact FsOp.noConfusion h
      · rcases List.mem_append.mp h with h | h
        · obtain ⟨c', hc', s, hform, _, hex'⟩ := htail _ h
          have hpath : c.path = c'.path := by injection hform
          have hcc : c = c' := List.inj_on_of_nodup_map hnd hc hc' hpath
          rw [← hcc] at hex'
          rw [hex] at hex'
          exact Bool.noConfusion hex'
        · rcases hkeep with hk | hk <;> rw [hk] at h
          · exact absurd h (by simp)
          · have := List.mem_singleton.mp h
            have hsrc : c.path = (g.candidates.getD ci defaultCand).path := by
              injection this
            exact hne hsrc
    · intro hnone hex
      obtain ⟨ht, hk⟩ := hsucc hnone
      have hmemf : c ∈ g.candidates.filter
          (archTarget (g.candidates.getD ci defaultCand).path) :=
        List.mem_filter.mpr ⟨hc, by
          simp only [archTarget, hex, Bool.and_true, decide_eq_true_eq]
          exact hne⟩
      refine ⟨(g.base_path.dropLast ++ [".stconflict-archive"]) ++
        [unique_name (c.path.getLastD "") millis], ?_⟩
      rw [htr, ht]
      refine List.mem_cons_of_mem _ (List.mem_append.mpr (Or.inl ?_))
      exact List.mem_map.mpr ⟨c, hmemf, rfl⟩

/-- Witness for `apply_group_exists_flag_decides` at the concrete group
`c6g` and its skipped candidate. -/
theorem apply_group_exists_flag_decides_witness :
    ((c6g.candidates.getD 1 defaultCand).«exists» = false →
      ∀ dst, FsOp.move (c6g.candidates.getD 1 defaultCand).path dst ∉
        (apply_group true c6fs c6g 0 77).2.1) ∧
    ((apply_group true c6fs c6g 0 77).2.2 = none →
      (c6g.candidates.getD 1 defaultCand).«exists» = true →
      ∃ dst, FsOp.move (c6g.candidates.getD 1 defaultCand).path dst ∈
        (apply_group true c6fs c6g 0 77).2.1) :=
  apply_group_exists_flag_decides c6fs c6g 0 77
    (c6g.candidates.getD 1 defaultCand) (by decide) (by decide) (by decide)

theorem apply_group_dry (fs : FileSys) (g : ConflictGroup) (ci millis : Nat) :
    (apply_group false fs g ci millis).1 = fs ∧
    (apply_group false fs g ci millis).2.1 = [] ∧
    (g.base_path ≠ [] → (apply_group false fs g ci millis).2.2 = none) := by
  by_cases hb : g.base_path = []
  · rw [apply_group_nil_base false fs g ci millis hb]
    exact ⟨rfl, rfl, fun h => absurd hb h⟩
  · have harch := archive_dir_for_ok hb
    refine ⟨?_, ?_, fun _ => ?_⟩ <;> simp [apply_group, harch]

/-! ### Controller lemmas -/

theorem getGroup_modifyGroup_self (l : List ConflictGroup) (gi : Nat)
    (f : ConflictGroup → ConflictGroup) (h : gi < l.length) :
    getGroup (modifyGroup l gi f) gi = f (getGroup l gi) := by
  induction l generalizing gi with
  | nil => exact absurd h (by simp)
  | cons g rest ih =>
    cases gi with
    | zero => rfl
    | succ n =>
      have hn : n < rest.length := Nat.lt_of_succ_lt_succ h
      show getGroup (modifyGroup rest n f) n = f (getGroup rest n)
      exact ih n hn

theorem run_loop_step_err (app : App) (fs : FileSys) (code : KeyCode)
    (mods : KeyMods) (millis : Nat) (e : String)
    (hmode : ¬ app.mode = Mode.done)
    (h : (handle_key app fs code mods millis).err = some e) :
    run_loop_step app fs code mods millis =
      StepResult.exitErr e (handle_key app fs code mods millis).app
        (handle_key app fs code mods millis).fs := by
  rw [run_loop_step, if_neg hmode]
  simp only [h]

set_option maxHeartbeats 2000000 in
theorem handle_key_pick_n (app : App) (fs : FileSys) (millis : Nat)
    (hmode : app.mode = Mode.pick) :
    handle_key app fs (KeyCode.char 'n') KeyMods.plain millis =
      ⟨(pick_newest app).1, fs, false, (pick_newest app).2⟩ := by
  rw [handle_key, hmode]
  rfl

set_option maxHeartbeats 2000000 in
theorem handle_key_pick_p (app : App) (fs : FileSys) (millis : Nat)
    (hmode : app.mode = Mode.pick) :
    handle_key app fs (KeyCode.char 'p') KeyMods.plain millis =
      ⟨(pick_oldest app).1, fs, false, (pick_oldest app).2⟩ := by
  rw [handle_key, hmode]
  rfl

/-! ### C7 — the pick-state newest/oldest shortcut with no timestamps -/

/-- C7 counterexample: in the Pick state over a group none of whose
candidates has a modification time, pressing `n` makes `pick_newest` return
`Err("no mtime")`; the `?` in `handle_key` and in `run_loop` propagates it,
so the event loop returns the error and the session terminates — the claim's
"the session does not terminate" is false (the rest of the claim holds: the
state is returned unchanged, still in Pick with `chosen` untouched). -/
theorem pick_newest_error_terminates_session :
    run_loop_step c7app c7fs (KeyCode.char 'n') KeyMods.plain 0 =
      StepResult.exitErr "no mtime" c7app c7fs := by
  decide

/-- C7 (amended): in the Pick state, when no candidate of the current group
has a modified timestamp, the `n` (newest) and `p` (oldest) shortcuts fail
with the reported condition "no mtime" before any mutation — the state at
exit is the entry state, so the session is still in Pick and no group's
`chosen` changed — but the error propagates out of `handle_key` through
`run_loop`'s `?`, terminating the session with that error. -/
theorem pick_no_mtime_error_exits_session (app : App) (fs : FileSys)
    (gi millis : Nat)
    (hmode : app.mode = Mode.pick)
    (hsel : app.list_state = some gi)
    (hmt : ∀ c ∈ (getGroup app.groups gi).candidates, c.modified = none) :
    run_loop_step app fs (KeyCode.char 'n') KeyMods.plain millis =
      StepResult.exitErr "no mtime" app fs ∧
    run_loop_step app fs (KeyCode.char 'p') KeyMods.plain millis =
      StepResult.exitErr "no mtime" app fs := by
  have hnew : (getGroup app.groups gi).newest_idx = none := by
    rw [ConflictGroup.newest_idx, Option.map_eq_none', maxByKeyLast_eq_none_iff,
      mtimePairs_eq_nil_iff]
    exact hmt
  have hold : (getGroup app.groups gi).oldest_idx = none := by
    rw [ConflictGroup.oldest_idx, Option.map_eq_none', minByKeyFirst_eq_none_iff,
      mtimePairs_eq_nil_iff]
    exact hmt
  have hpn : pick_newest app = (app, some "no mtime") := by
    simp only [pick_newest, hsel, hnew]
  have hpo : pick_oldest app = (app, some "no mtime") := by
    simp only [pick_oldest, hsel, hold]
  have hmd : ¬ app.mode = Mode.done := by
    rw [hmode]
    intro hcon
    cases hcon
  have hkn := handle_key_pick_n app fs millis hmode
  have hkp := handle_key_pick_p app fs millis hmode
  constructor
  · rw [run_loop_step_err app fs (KeyCode.char 'n') KeyMods.plain millis
      "no mtime" hmd (by rw [hkn, hpn]), hkn, hpn]
  · rw [run_loop_step_err app fs (KeyCode.char 'p') KeyMods.plain millis
      "no mtime" hmd (by rw [hkp, hpo]), hkp, hpo]

/-- Witness for `pick_no_mtime_error_exits_session` on the concrete
timestampless session (with a different key-repeat clock than the
counterexample). -/
theorem pick_no_mtime_error_exits_session_witness :
    (c7app.mode = Mode.pick ∧ c7app.list_state = some 0 ∧
      ∀ c ∈ (getGroup c7app.groups 0).candidates, c.modified = none) ∧
    (run_loop_step c7app c7fs (KeyCode.char 'n') KeyMods.plain 3 =
        StepResult.exitErr "no mtime" c7app c7fs ∧
      run_loop_step c7app c7fs (KeyCode.char 'p') KeyMods.plain 3 =
        StepResult.exitErr "no mtime" c7app c7fs) :=
  ⟨⟨rfl, rfl, by decide⟩,
    pick_no_mtime_error_exits_session c7app c7fs 0 3 rfl rfl (by decide)⟩

/-! ### C10 — list-view quick-pick falls back to the original -/

theorem pick_kind_single (app : App) (gi : Nat) (kind : PickKind)
    (hsel : app.list_state = some gi) :
    (pick_kind_for_targets app kind false).groups =
      modifyGroup app.groups gi (fun g =>
        { g with chosen := match kind with
            | PickKind.current => some 0
            | PickKind.newest => (getGroup app.groups gi).newest_idx.or (some 0)
            | PickKind.oldest => (getGroup app.groups gi).oldest_idx.or (some 0) }) ∧
    (pick_kind_for_targets app kind false).message = pickKindMessage kind false := by
  constructor
  · rw [pick_kind_for_targets, hsel]
    rfl
  · rw [pick_kind_for_targets, hsel]
    rfl

/-- C10: a quick-pick of newest (or oldest) issued from the list view on a
group none of whose candidates has a modified timestamp silently resolves the
group to `some 0` — the original candidate — and reports plain success,
whereas the same shortcut in the Pick state (`pick_newest`) fails with
"no mtime". -/
theorem quick_pick_no_mtime_defaults_to_original (app : App) (gi : Nat)
    (hsel : app.list_state = some gi)
    (hgi : gi < app.groups.length)
    (hmt : ∀ c ∈ (getGroup app.groups gi).candidates, c.modified = none) :
    (getGroup (pick_kind_for_targets app PickKind.newest false).groups gi).chosen
        = some 0 ∧
    (getGroup (pick_kind_for_targets app PickKind.oldest false).groups gi).chosen
        = some 0 ∧
    (pick_kind_for_targets app PickKind.newest false).message = "Picked newest" ∧
    (pick_newest app).2 = some "no mtime" := by
  have hnew : (getGroup app.groups gi).newest_idx = none := by
    rw [ConflictGroup.newest_idx, Option.map_eq_none', maxByKeyLast_eq_none_iff,
      mtimePairs_eq_nil_iff]
    exact hmt
  have hold : (getGroup app.groups gi).oldest_idx = none := by
    rw [ConflictGroup.oldest_idx, Option.map_eq_none', minByKeyFirst_eq_none_iff,
      mtimePairs_eq_nil_iff]
    exact hmt
  refine ⟨?_, ?_, ?_, ?_⟩
  · rw [(pick_kind_single app gi PickKind.newest hsel).1,
      getGroup_modifyGroup_self app.groups gi _ hgi]
    show (getGroup app.groups gi).newest_idx.or (some 0) = some 0
    rw [hnew]
    rfl
  · rw [(pick_kind_single app gi PickKind.oldest hsel).1,
      getGroup_modifyGroup_self app.groups gi _ hgi]
    show (getGroup app.groups gi).oldest_idx.or (some 0) = some 0
    rw [hold]
    rfl
  · rw [(pick_kind_single app gi PickKind.newest hsel).2]
    rfl
  · simp only [pick_newest, hsel, hnew]

/-- Witness for `quick_pick_no_mtime_defaults_to_original` on the concrete
timestampless session viewed from the list. -/
theorem quick_pick_no_mtime_defaults_to_original_witness :
    (c10app.list_state = some 0 ∧ 0 < c10app.groups.length ∧
      ∀ c ∈ (getGroup c10app.groups 0).candidates, c.modified = none) ∧
    ((getGroup (pick_kind_for_targets c10app PickKind.newest false).groups
        0).chosen = some 0 ∧
      (getGroup (pick_kind_for_targets c10app PickKind.oldest false).groups
        0).chosen = some 0 ∧
      (pick_kind_for_targets c10app PickKind.newest false).message =
        "Picked newest" ∧
      (pick_newest c10app).2 = some "no mtime") :=
  ⟨⟨rfl, by decide, by decide⟩,
    quick_pick_no_mtime_defaults_to_original c10app 0 rfl (by decide) (by decide)⟩

/-! ### C8 — planning aborts entirely when a target lacks a choice -/

theorem plan_group_ops_ok (app : App) (gi ci : Nat)
    (hbase : (getGroup app.groups gi).base_path ≠ []) :
    plan_group_ops app gi ci =
      ({ app with planned_ops := app.planned_ops ++
          [ "Group: " ++
              pathStr (rel_path app.root (getGroup app.groups gi).base_path)
          , "  keep -> " ++ pathStr (rel_path app.root
              ((getGroup app.groups gi).candidates.getD ci defaultCand).path)
          , "  archive -> " ++ pathStr (rel_path app.root
              ((getGroup app.groups gi).base_path.dropLast ++
                [".stconflict-archive"])) ] }, none) := by
  rw [plan_group_ops, archive_dir_for_ok hbase]

theorem planLoop_aborts (targets : List Nat) (remaining : List Nat) :
    ∀ app : App,
      (∃ gi ∈ remaining, (getGroup app.groups gi).chosen = none) →
      (∀ gi ∈ remaining, (getGroup app.groups gi).base_path ≠ []) →
      (planLoop targets app remaining).2 = none ∧
      (planLoop targets app remaining).1.planned_ops = [] ∧
      (planLoop targets app remaining).1.planned_targets = [] ∧
      (planLoop targets app remaining).1.message = "Pick a version first (Enter)" ∧
      (planLoop targets app remaining).1.mode = app.mode ∧
      (planLoop targets app remaining).1.groups = app.groups := by
  induction remaining with
  | nil =>
    intro app hex _
    obtain ⟨gi, hgi, -⟩ := hex
    exact absurd hgi (List.not_mem_nil gi)
  | cons gi rest ih =>
    intro app hex hbase
    rw [planLoop]
    cases hc : (getGroup app.groups gi).chosen with
    | none => exact ⟨rfl, rfl, rfl, rfl, rfl, rfl⟩
    | some ci =>
      dsimp only
      rw [plan_group_ops_ok app gi ci (hbase gi (List.mem_cons_self gi rest))]
      have hex' : ∃ gj ∈ rest,
          (getGroup app.groups gj).chosen = none := by
        obtain ⟨gj, hgj, hgc⟩ := hex
        rcases List.mem_cons.mp hgj with rfl | hgj'
        · rw [hc] at hgc
          exact absurd hgc (by simp)
        · exact ⟨gj, hgj', hgc⟩
      exact ih _ hex' (fun gj hgj => hbase gj (List.mem_cons_of_mem gi hgj))

/-- C8: whenever some targeted group has no chosen candidate — for any
target set (the multi-selection or the cursor group) — planning aborts as a
whole: no error escapes, the stored plan (operation lines and targets) ends
up empty even if a prefix of the targets was already planned or a previous
plan existed, the failed precondition is reported as the message, and the
session's mode and groups (in particular every `chosen` field) are exactly
as before. -/
theorem plan_aborts_when_choice_missing (app : App) (all_selected : Bool)
    (targets : List Nat)
    (htargets : targets = List.insertionSort (· ≤ ·)
      (if all_selected then app.selected_groups else app.list_state.toList))
    (hne : targets ≠ [])
    (hex : ∃ gi ∈ targets, (getGroup app.groups gi).chosen = none)
    (hbase : ∀ gi ∈ targets, (getGroup app.groups gi).base_path ≠ []) :
    (plan_and_confirm app all_selected).2 = none ∧
    (plan_and_confirm app all_selected).1.planned_ops = [] ∧
    (plan_and_confirm app all_selected).1.planned_targets = [] ∧
    (plan_and_confirm app all_selected).1.message =
      "Pick a version first (Enter)" ∧
    (plan_and_confirm app all_selected).1.mode = app.mode ∧
    (plan_and_confirm app all_selected).1.groups = app.groups := by
  rw [plan_and_confirm, ← htargets, if_neg hne]
  exact planLoop_aborts targets targets _ hex hbase

/-- Witness for `plan_aborts_when_choice_missing`: planning the unresolved
group under the cursor of the concrete list session. -/
theorem plan_aborts_when_choice_missing_witness :
    ([0] = List.insertionSort (· ≤ ·)
        (if false then c10app.selected_groups else c10app.list_state.toList) ∧
      (∃ gi ∈ [0], (getGroup c10app.groups gi).chosen = none)) ∧
    ((plan_and_confirm c10app false).2 = none ∧
      (plan_and_confirm c10app false).1.planned_ops = [] ∧
      (plan_and_confirm c10app false).1.planned_targets = [] ∧
      (plan_and_confirm c10app false).1.message =
        "Pick a version first (Enter)" ∧
      (plan_and_confirm c10app false).1.mode = c10app.mode ∧
      (plan_and_confirm c10app false).1.groups = c10app.groups) :=
  ⟨⟨by decide, by decide⟩,
    plan_aborts_when_choice_missing c10app false [0] (by decide) (by decide)
      (by decide) (by decide)⟩

/-! ### C9 — per-group failure isolation in the apply loop -/

theorem applyLoop_cons (app : App) (millis : Nat) (fs : FileSys) (gi : Nat)
    (rest : List Nat) :
    applyLoop app millis fs (gi :: rest) =
      ((applyLoop app millis (applyOneGroup app millis fs gi).1 rest).1,
        (applyOneGroup app millis fs gi).2 ++
          (applyLoop app millis (applyOneGroup app millis fs gi).1 rest).2) := by
  rw [applyLoop, applyOneGroup]
  cases hc : (getGroup app.groups gi).chosen with
  | none => simp
  | some ci =>
    dsimp only
    cases he : (apply_group app.apply fs (getGroup app.groups gi) ci millis).2.2
      with
    | none => simp
    | some e => simp

theorem applyLoop_append (app : App) (millis : Nat) (l₁ l₂ : List Nat) :
    ∀ fs : FileSys,
      applyLoop app millis fs (l₁ ++ l₂) =
        ((applyLoop app millis (applyLoop app millis fs l₁).1 l₂).1,
          (applyLoop app millis fs l₁).2 ++
            (applyLoop app millis (applyLoop app millis fs l₁).1 l₂).2) := by
  induction l₁ with
  | nil =>
    intro fs
    simp [applyLoop]
  | cons gi rest ih =>
    intro fs
    rw [List.cons_append, applyLoop_cons, applyLoop_cons, ih]
    simp [List.append_assoc]

/-- C9: the apply step processes the whole planned batch independently of
failures: around any target `gi` the loop decomposes into the preceding
targets, `gi`'s own outcome, and the remaining targets — which are processed
on the filesystem state left after `gi`, whether or not `gi` failed — with
the error messages concatenated in batch order; and whenever the batch
produced any errors they are all reported together afterwards, as a count in
the status message with the details stored as the log lines, instead of the
first error aborting the apply step. -/
theorem apply_plan_isolates_failures (app : App) (fs : FileSys) (millis : Nat)
    (l₁ l₂ : List Nat) (gi : Nat)
    (hts : app.planned_targets = l₁ ++ gi :: l₂) :
    (applyLoop app millis fs app.planned_targets =
      ((applyLoop app millis
          (applyOneGroup app millis (applyLoop app millis fs l₁).1 gi).1 l₂).1,
        (applyLoop app millis fs l₁).2 ++
          (applyOneGroup app millis (applyLoop app millis fs l₁).1 gi).2 ++
          (applyLoop app millis
            (applyOneGroup app millis (applyLoop app millis fs l₁).1 gi).1
            l₂).2)) ∧
    ((applyLoop app millis fs app.planned_targets).2 ≠ [] →
      (apply_plan app fs millis).1.message =
        "Some groups failed (" ++
          toString (applyLoop app millis fs app.planned_targets).2.length ++
          "). See details in the log panel." ∧
      (apply_plan app fs millis).1.planned_ops =
        (applyLoop app millis fs app.planned_targets).2 ∧
      (apply_plan app fs millis).1.planned_targets = [] ∧
      (apply_plan app fs millis).1.mode = Mode.confirm ∧
      (apply_plan app fs millis).2 =
        (applyLoop app millis fs app.planned_targets).1) := by
  have htne : app.planned_targets ≠ [] := by
    rw [hts]
    simp
  constructor
  · rw [hts, applyLoop_append, applyLoop_cons, List.append_assoc]
  · intro hne
    rw [apply_plan, if_neg htne, if_neg hne]
    exact ⟨rfl, rfl, rfl, rfl, rfl⟩

/-- Witness for `apply_plan_isolates_failures`: the two-group apply batch
whose first group's keeper vanished from disk — the second group is still
applied and exactly one failure is reported. -/
theorem apply_plan_isolates_failures_witness :
    (c9app.planned_targets = [] ++ 0 :: [1] ∧
      (applyLoop c9app 5 c9fs c9app.planned_targets).2.length = 1 ∧
      (applyOneGroup c9app 5
        (applyOneGroup c9app 5 c9fs 0).1 1).2 = []) ∧
    ((apply_plan c9app c9fs 5).1.message =
        "Some groups failed (" ++
          toString (applyLoop c9app 5 c9fs c9app.planned_targets).2.length ++
          "). See details in the log panel." ∧
      (apply_plan c9app c9fs 5).1.planned_ops =
        (applyLoop c9app 5 c9fs c9app.planned_targets).2 ∧
      (apply_plan c9app c9fs 5).1.planned_targets = [] ∧
      (apply_plan c9app c9fs 5).1.mode = Mode.confirm ∧
      (apply_plan c9app c9fs 5).2 =
        (applyLoop c9app 5 c9fs c9app.planned_targets).1) :=
  ⟨⟨by decide, by decide, by decide⟩,
    (apply_plan_isolates_failures c9app c9fs 5 [] [1] 0 (by decide)).2
      (by decide)⟩

/-! ### C2 — dry-run performs no filesystem mutation -/

theorem applyOneGroup_dry (app : App) (millis : Nat) (fs : FileSys) (gi : Nat)
    (hdry : app.apply = false) :
    (applyOneGroup app millis fs gi).1 = fs ∧
    ((getGroup app.groups gi).base_path ≠ [] →
      (applyOneGroup app millis fs gi).2 = []) := by
  rw [applyOneGroup, hdry]
  cases hc : (getGroup app.groups gi).chosen with
  | none => exact ⟨rfl, fun _ => rfl⟩
  | some ci =>
    dsimp only
    have h1 := (apply_group_dry fs (getGroup app.groups gi) ci millis).1
    have h3 := (apply_group_dry fs (getGroup app.groups gi) ci millis).2.2
    cases he : (apply_group false fs (getGroup app.groups gi) ci millis).2.2 with
    | none => exact ⟨h1, fun _ => rfl⟩
    | some e =>
      refine ⟨h1, fun hb => ?_⟩
      rw [h3 hb] at he
      exact absurd he (by simp)

theorem applyLoop_dry (app : App) (millis : Nat) (targets : List Nat)
    (hdry : app.apply = false) :
    ∀ fs : FileSys,
      (applyLoop app millis fs targets).1 = fs ∧
      ((∀ gi ∈ targets, (getGroup app.groups gi).base_path ≠ []) →
        (applyLoop app millis fs targets).2 = []) := by
  induction targets with
  | nil => exact fun fs => ⟨rfl, fun _ => rfl⟩
  | cons gi rest ih =>
    intro fs
    rw [applyLoop_cons]
    obtain ⟨hone1, hone2⟩ := applyOneGroup_dry app millis fs gi hdry
    obtain ⟨hrest1, hrest2⟩ := ih (applyOneGroup app millis fs gi).1
    constructor
    · rw [hrest1, hone1]
    · intro hbase
      rw [hone2 (hbase gi (List.mem_cons_self gi rest)),
        hrest2 (fun gj hgj => hbase gj (List.mem_cons_of_mem gi hgj))]
      rfl

/-- C2: in dry-run mode the apply step is pure on the filesystem.  For one
group, `apply_group` with the apply flag off returns the filesystem
untouched, performs no mutation at all (the mutation log is empty — in
particular the archive directory is never created and no candidate is
moved), and, whenever the group has a parent directory, reports no error
(the group counts as succeeded); consequently a whole `apply_plan` run of a
dry-run session leaves the filesystem exactly as it was, and when the
planned targets (a nonempty set of groups with parents) are processed it
reports the dry-run completion message with the confirmation still open. -/
theorem dry_run_is_pure (app : App) (fs : FileSys) (g : ConflictGroup)
    (ci millis : Nat) (hdry : app.apply = false) :
    (apply_group false fs g ci millis).1 = fs ∧
    (apply_group false fs g ci millis).2.1 = [] ∧
    (g.base_path ≠ [] → (apply_group false fs g ci millis).2.2 = none) ∧
    (apply_plan app fs millis).2 = fs ∧
    (app.planned_targets ≠ [] →
      (∀ gi ∈ app.planned_targets, (getGroup app.groups gi).base_path ≠ []) →
      (apply_plan app fs millis).1.message =
        "Dry-run complete. Toggle apply with 't', then press 'y' to apply." ∧
      (apply_plan app fs millis).1.mode = Mode.confirm) := by
  obtain ⟨hloop1, hloop2⟩ := applyLoop_dry app millis app.planned_targets hdry fs
  refine ⟨(apply_group_dry fs g ci millis).1, (apply_group_dry fs g ci millis).2.1,
    (apply_group_dry fs g ci millis).2.2, ?_, ?_⟩
  · by_cases ht : app.planned_targets = []
    · rw [apply_plan, if_pos ht]
    · rw [apply_plan, if_neg ht]
      by_cases he : (applyLoop app millis fs app.planned_targets).2 = []
      · rw [if_pos he, hdry]
        exact hloop1
      · rw [if_neg he]
        exact hloop1
  · intro ht hbase
    rw [apply_plan, if_neg ht, if_pos (hloop2 hbase), hdry]
    exact ⟨rfl, rfl⟩

/-- Witness for `dry_run_is_pure`: the dry-run confirmation session over the
planned group 0 leaves the concrete filesystem untouched and reports the
dry-run completion. -/
theorem dry_run_is_pure_witness :
    (apply_plan c2app c7fs 9).2 = c7fs ∧
    (apply_plan c2app c7fs 9).1.message =
      "Dry-run complete. Toggle apply with 't', then press 'y' to apply." ∧
    (apply_plan c2app c7fs 9).1.mode = Mode.confirm ∧
    (apply_group false c7fs c7g 0 9).1 = c7fs ∧
    (apply_group false c7fs c7g 0 9).2.1 = [] := by
  have h := dry_run_is_pure c2app c7fs c7g 0 9 rfl
  obtain ⟨hm, hmode⟩ := h.2.2.2.2 (by decide) (by decide)
  exact ⟨h.2.2.2.1, hm, hmode, h.1, h.2.1⟩

end STR
